import Mathlib

/-!
Verification of the obsidian-base-live-filter-plugin core (src/main.ts) against
its specification. The document text is modelled as `List Char` (one entry per
UTF-16 code unit / Unicode scalar; the source never manipulates lone
surrogates, so the two views coincide). JavaScript string primitives used by
the source (`indexOf`, `slice`, `startsWith`, `split`, `trim`,
`encodeURIComponent`, `decodeURIComponent`, regular expressions) are embedded
as executable Lean functions on `List Char` following their ECMAScript
semantics.
-/

set_option maxHeartbeats 1000000

namespace BLF

/-- JavaScript whitespace (the class matched by `\s`, `String.prototype.trim`),
as Unicode scalar values: tab, LF, VT, FF, CR, space, NBSP, and the Unicode
space separators and line terminators. -/
def wsCodes : List Nat :=
  [9, 10, 11, 12, 13, 32, 160, 0x1680, 0x2000, 0x2001, 0x2002, 0x2003, 0x2004,
   0x2005, 0x2006, 0x2007, 0x2008, 0x2009, 0x200A, 0x2028, 0x2029, 0x202F,
   0x205F, 0x3000, 0xFEFF]

def isJsWs (c : Char) : Bool := decide (c.toNat ∈ wsCodes)

def isDigitCh (c : Char) : Bool := decide (48 ≤ c.toNat ∧ c.toNat ≤ 57)

/-- `String.prototype.trim`: strip leading and trailing JS whitespace. -/
def jsTrim (s : List Char) : List Char :=
  ((s.dropWhile isJsWs).reverse.dropWhile isJsWs).reverse

/-- Characters `encodeURIComponent` leaves unescaped:
`A-Z a-z 0-9 - _ . ! ~ * ' ( )` (as scalar values). -/
def isUnreservedCode (n : Nat) : Bool :=
  (65 ≤ n && n ≤ 90) || (97 ≤ n && n ≤ 122) || (48 ≤ n && n ≤ 57) ||
  decide (n ∈ [45, 95, 46, 33, 126, 42, 39, 40, 41])

def isUnreservedURI (c : Char) : Bool := isUnreservedCode c.toNat

/-- Uppercase hexadecimal digit, as produced by `encodeURIComponent`. -/
def hexDigitChar (n : Nat) : Char :=
  if n < 10 then Char.ofNat (48 + n) else Char.ofNat (55 + n)

/-- UTF-8 encoding of a Unicode scalar value (byte values as `Nat`). -/
def utf8Bytes (n : Nat) : List Nat :=
  if n < 0x80 then [n]
  else if n < 0x800 then [0xC0 + n / 64, 0x80 + n % 64]
  else if n < 0x10000 then [0xE0 + n / 4096, 0x80 + n / 64 % 64, 0x80 + n % 64]
  else [0xF0 + n / 262144, 0x80 + n / 4096 % 64, 0x80 + n / 64 % 64, 0x80 + n % 64]

def percentByte (b : Nat) : List Char := ['%', hexDigitChar (b / 16), hexDigitChar (b % 16)]

def encodeChar (c : Char) : List Char :=
  if isUnreservedURI c then [c] else ((utf8Bytes c.toNat).map percentByte).flatten

/-- `encodeState` from src/main.ts: `encodeURIComponent` (its `try`/`catch`
fallback only fires on lone surrogates, which cannot occur in `List Char`). -/
def encodeState (s : List Char) : List Char := (s.map encodeChar).flatten

def hexVal (c : Char) : Option Nat :=
  if 48 ≤ c.toNat ∧ c.toNat ≤ 57 then some (c.toNat - 48)
  else if 65 ≤ c.toNat ∧ c.toNat ≤ 70 then some (c.toNat - 55)
  else if 97 ≤ c.toNat ∧ c.toNat ≤ 102 then some (c.toNat - 87)
  else none

/-- First phase of `decodeURIComponent`: each `%XX` becomes a byte token
(`Sum.inr`), any other character passes through (`Sum.inl`); a `%` not
followed by two hex digits is a `URIError` (`none`). -/
def uriTokens : List Char → Option (List (Char ⊕ Nat))
  | [] => some []
  | c :: rest =>
    if c = '%' then
      match rest with
      | h1 :: h2 :: rest2 =>
        match hexVal h1, hexVal h2 with
        | some a, some b => (uriTokens rest2).map (fun ts => Sum.inr (16 * a + b) :: ts)
        | _, _ => none
      | _ => none
    else
      (uriTokens rest).map (fun ts => Sum.inl c :: ts)

/-- The payload of a UTF-8 continuation byte token (`10xxxxxx`), if any. -/
def contVal (t : Char ⊕ Nat) : Option Nat :=
  match t with
  | Sum.inr b => if 0x80 ≤ b ∧ b < 0xC0 then some (b - 0x80) else none
  | Sum.inl _ => none

/-- Read one continuation byte off the token stream. -/
def cont1 : List (Char ⊕ Nat) → Option (Nat × List (Char ⊕ Nat))
  | t :: ts => (contVal t).map (fun v => (v, ts))
  | [] => none

/-- Second phase of `decodeURIComponent`: runs of byte tokens are decoded as
UTF-8 (rejecting stray continuation bytes, overlong forms, surrogates and
out-of-range values with a `URIError`, per ECMA-262). -/
def decodeToks (ts0 : List (Char ⊕ Nat)) : Option (List Char) :=
  match ts0 with
  | [] => some []
  | Sum.inl c :: ts => (decodeToks ts).map (fun l => c :: l)
  | Sum.inr b :: ts =>
    if b < 0x80 then (decodeToks ts).map (fun l => Char.ofNat b :: l)
    else if b < 0xC0 then none
    else if b < 0xE0 then
      match h1 : cont1 ts with
      | some (v1, ts2) =>
        let v := (b - 0xC0) * 64 + v1
        if 0x80 ≤ v then (decodeToks ts2).map (fun l => Char.ofNat v :: l) else none
      | none => none
    else if b < 0xF0 then
      match h1 : cont1 ts with
      | some (v1, tsA) =>
        match h2 : cont1 tsA with
        | some (v2, ts2) =>
          let v := (b - 0xE0) * 4096 + v1 * 64 + v2
          if 0x800 ≤ v ∧ (v < 0xD800 ∨ 0xE000 ≤ v) then
            (decodeToks ts2).map (fun l => Char.ofNat v :: l)
          else none
        | none => none
      | none => none
    else if b < 0xF8 then
      match h1 : cont1 ts with
      | some (v1, tsA) =>
        match h2 : cont1 tsA with
        | some (v2, tsB) =>
          match h3 : cont1 tsB with
          | some (v3, ts2) =>
            let v := (b - 0xF0) * 262144 + v1 * 4096 + v2 * 64 + v3
            if 0x10000 ≤ v ∧ v < 0x110000 then
              (decodeToks ts2).map (fun l => Char.ofNat v :: l)
            else none
          | none => none
        | none => none
      | none => none
    else none
termination_by ts0.length
decreasing_by
  all_goals
    have key : ∀ (u : List (Char ⊕ Nat)) (w : Nat) (u2 : List (Char ⊕ Nat)),
        cont1 u = some (w, u2) → u2.length < u.length := by
      intro u w u2 hu
      cases u with
      | nil => simp [cont1] at hu
      | cons t rest =>
        simp only [cont1, Option.map_eq_some'] at hu
        obtain ⟨x, hx, heq⟩ := hu
        cases heq
        simp
    try have k1 := key _ _ _ h1
    try have k2 := key _ _ _ h2
    try have k3 := key _ _ _ h3
    simp only [List.length_cons]
    omega

/-- `decodeState` from src/main.ts: `decodeURIComponent`, returning the input
unchanged when decoding throws (the `catch` branch). -/
def decodeState (s : List Char) : List Char :=
  match uriTokens s with
  | none => s
  | some ts => (decodeToks ts).getD s

def digitChar (n : Nat) : Char := Char.ofNat (48 + n)

/-- Decimal digits of `n`, least significant first. -/
def toDecRev (n : Nat) : List Char :=
  if n < 10 then [digitChar n]
  else digitChar (n % 10) :: toDecRev (n / 10)
decreasing_by exact Nat.div_lt_self (by omega) (by omega)

/-- Decimal notation of a number, as produced by JS template interpolation. -/
def natToDec (n : Nat) : List Char := (toDecRev n).reverse

/-- `parseInt(ds, 10)` on an all-digit string. -/
def parseDec (ds : List Char) : Nat := ds.foldl (fun a c => 10 * a + (c.toNat - 48)) 0

/-- `Array.prototype.join("\n")`. -/
def joinNL : List (List Char) → List Char
  | [] => []
  | [l] => l
  | l :: ls => l ++ '\n' :: joinNL ls

/-- Split a text at every newline (the view of the document a JS multiline
regex `^...$` operates on, for text whose only line terminator is `\n`). -/
def splitNL : List Char → List (List Char)
  | [] => [[]]
  | c :: rest =>
    if c = '\n' then [] :: splitNL rest
    else
      match splitNL rest with
      | l :: ls => (c :: l) :: ls
      | [] => [[c]]

/-- Index of the first occurrence of `pat` in `t` (JS `indexOf` with fromIndex
0, `none` for -1). -/
def firstOcc : List Char → List Char → Option Nat
  | [], pat => if pat.isPrefixOf [] then some 0 else none
  | c :: t2, pat =>
    if pat.isPrefixOf (c :: t2) then some 0
    else (firstOcc t2 pat).map (fun i => i + 1)

/-- JS `t.indexOf(pat, start)`. -/
def idxOf (t pat : List Char) (start : Nat) : Option Nat :=
  (firstOcc (t.drop start) pat).map (fun i => i + start)

/-- JS `t.includes(pat)`. -/
def containsSub (t pat : List Char) : Bool := (firstOcc t pat).isSome

def FENCE_START : List Char := "```base".data

def BEGIN_MARK : List Char :=
  "# BEGIN FILTERS (managed by obsidian-base-live-filter-plugin)".data

def END_MARK : List Char := "# END FILTERS".data

def NL_FENCE : List Char := "\n```".data

/-- `BaseBlockInfo` from src/main.ts (`end` is a Lean keyword, hence `endPos`). -/
structure BaseBlockInfo where
  start : Nat
  endPos : Nat
  filtersStart : Nat
  filtersEnd : Nat
deriving DecidableEq, Repr

/-- `findBaseBlock` from src/main.ts, lines 94-103. -/
def findBaseBlock (text : List Char) : Option BaseBlockInfo :=
  match idxOf text FENCE_START 0 with
  | none => none
  | some fenceIdx =>
    match idxOf text NL_FENCE (fenceIdx + FENCE_START.length) with
    | none => none
    | some fenceEnd =>
      match idxOf text BEGIN_MARK fenceIdx, idxOf text END_MARK fenceIdx with
      | some beginIdx, some endIdx =>
        if endIdx < beginIdx then none
        else some ⟨fenceIdx, fenceEnd + 4, beginIdx, endIdx + END_MARK.length⟩
      | _, _ => none

/-- The replacement spliced in by `replaceFiltersInBaseBlock`:
`` `${BEGIN_MARK}\n${newFilters}\n${END_MARK}` ``. -/
def filtersReplacement (newFilters : List Char) : List Char :=
  BEGIN_MARK ++ '\n' :: newFilters ++ '\n' :: END_MARK

/-- The splice `before + replacement + after` at offsets `fs`, `fe`. -/
def spliceFilters (text : List Char) (fs fe : Nat) (newFilters : List Char) : List Char :=
  text.take fs ++ filtersReplacement newFilters ++ text.drop fe

/-- `replaceFiltersInBaseBlock` from src/main.ts, lines 129-139 (the pure part:
re-read text ↦ new text written back). -/
def replaceFiltersInBaseBlock (text : List Char) (info : BaseBlockInfo)
    (newFilters : List Char) : List Char :=
  let latest := findBaseBlock text
  let target := latest.getD info
  spliceFilters text target.filtersStart target.filtersEnd newFilters

abbrev Tag := List Char

/-- JS `toLowerCase`, per code unit (the source only compares tags, whose
case-folding is character-wise). -/
def toLowerCase (s : List Char) : List Char := s.map Char.toLower

/-- `q.replace(/^#/, "")`. -/
def stripHash (q : List Char) : List Char :=
  match q with
  | c :: rest => if c = '#' then rest else q
  | [] => q

/-- `prefixMatch` from src/main.ts, lines 29-33. -/
def prefixMatch (all : List Tag) (pre : List Char) (limit : Nat) : List Tag :=
  let q := toLowerCase (stripHash pre)
  if q.isEmpty then []
  else (all.filter (fun t => q.isPrefixOf (toLowerCase t))).take limit

/-- `suffixMatch` from src/main.ts, lines 35-39. -/
def suffixMatch (all : List Tag) (suf : List Char) (limit : Nat) : List Tag :=
  let q := toLowerCase (stripHash suf)
  if q.isEmpty then []
  else (all.filter (fun t => q.isSuffixOf (toLowerCase t))).take limit

/-- `substringMatch` from src/main.ts, lines 41-45. -/
def substringMatch (all : List Tag) (part : List Char) (limit : Nat) : List Tag :=
  let q := toLowerCase (stripHash part)
  if q.isEmpty then []
  else (all.filter (fun t => containsSub (toLowerCase t) q)).take limit

/-- `MatchSettings` from src/main.ts, line 153. -/
structure MatchSettings where
  enablePrefix : Bool
  enableSuffix : Bool
  enableSubstring : Bool
  refreshDelayMs : Nat

/-- One tier of the capped merge loop in `TagSuggest.getSuggestions`
(`for (const t of tier) { if (!seen.has(t)) { seen.add(t); merged.push(t); }
if (merged.length >= cap) break; }`). Returns the updated `(seen, merged)`. -/
def mergeTier (cap : Nat) (seen merged : List Tag) : List Tag → List Tag × List Tag
  | [] => (seen, merged)
  | t :: ts =>
    let st := if t ∈ seen then (seen, merged) else (t :: seen, merged ++ [t])
    if cap ≤ st.2.length then st else mergeTier cap st.1 st.2 ts

/-- The three-tier merge of `TagSuggest.getSuggestions`, lines 227-244: cap 12,
tiers 2 and 3 gated on `merged.length < 12`. -/
def merge12 (pref suff subs : List Tag) : List Tag :=
  let r1 := mergeTier 12 [] [] pref
  let r2 := if r1.2.length < 12 then mergeTier 12 r1.1 r1.2 suff else r1
  let r3 := if r2.2.length < 12 then mergeTier 12 r2.1 r2.2 subs else r2
  r3.2

/-- One tier of the uncapped merge loop in `buildFiltersFromInput`
(`for (const t of tier) { if (!seen.has(t)) { seen.add(t); merged.push(t); } }`). -/
def dedupAppend (seen merged : List Tag) : List Tag → List Tag × List Tag
  | [] => (seen, merged)
  | t :: ts =>
    if t ∈ seen then dedupAppend seen merged ts
    else dedupAppend (t :: seen) (merged ++ [t]) ts

/-- The three-tier uncapped merge of `buildFiltersFromInput`, lines 174-178. -/
def mergeNoCap (pref suff subs : List Tag) : List Tag :=
  let r1 := dedupAppend [] [] pref
  let r2 := dedupAppend r1.1 r1.2 suff
  let r3 := dedupAppend r2.1 r2.2 subs
  r3.2

/-- `escapeQuote` from src/main.ts: `s.replace(/"/g, '\\"')`. -/
def escapeQuote (s : List Char) : List Char :=
  (s.map (fun c => if c = '"' then ['\\', '"'] else [c])).flatten

/-- `` `"${escapeQuote(x)}"` `` -/
def quoteItem (s : List Char) : List Char := '"' :: (escapeQuote s ++ ['"'])

/-- `Array.prototype.join(", ")`. -/
def joinComma : List (List Char) → List Char
  | [] => []
  | [l] => l
  | l :: ls => l ++ ", ".data ++ joinComma ls

/-- `s.split(/\s+/).filter(Boolean)`: maximal whitespace-free runs of `s`. -/
def splitWsTokens : List Char → List Char → List (List Char)
  | [], acc => if acc.isEmpty then [] else [acc.reverse]
  | c :: rest, acc =>
    if isJsWs c then
      if acc.isEmpty then splitWsTokens rest [] else acc.reverse :: splitWsTokens rest []
    else splitWsTokens rest (c :: acc)

def splitWs (s : List Char) : List (List Char) := splitWsTokens s []

/-- The bracket contents of one `containsAny` clause of `buildFiltersFromInput`
(lines 167-182): the raw token (leading `#` stripped, quote-escaped) if
nonempty, then at most 60 merged matching tags. -/
def clauseItems (allTags : List Tag) (modes : MatchSettings) (part : List Char) :
    List (List Char) :=
  let isHash := part.head? = some '#'
  let base := if isHash then jsTrim (part.drop 1) else part
  let pref := if modes.enablePrefix then prefixMatch allTags base 200 else []
  let suff := if modes.enableSuffix then suffixMatch allTags base 200 else []
  let subs := if modes.enableSubstring then substringMatch allTags base 200 else []
  let merged := mergeNoCap pref suff subs
  (if base.isEmpty then [] else [quoteItem base]) ++ (merged.take 60).map quoteItem

/-- One generated filter line: `    - file.tags.containsAny([...])`. -/
def clauseLine (allTags : List Tag) (modes : MatchSettings) (part : List Char) : List Char :=
  "    - file.tags.containsAny([".data ++ joinComma (clauseItems allTags modes part) ++ "])".data

/-- The `# INPUT:` state line produced by `buildFiltersFromInput`. -/
def inputLine (input : List Char) : List Char := "# INPUT: ".data ++ encodeState input

/-- The `# CARET:` state line produced by `buildFiltersFromInput`. -/
def caretLine (c : Nat) : List Char := "# CARET: ".data ++ natToDec c

/-- The array of lines `buildFiltersFromInput` (lines 155-193) joins with
`"\n"`; `caret : Option Nat` models the `number | undefined` parameter. -/
def buildFiltersLines (input : List Char) (allTags : List Tag) (caret : Option Nat)
    (modes : MatchSettings) : List (List Char) :=
  let s := jsTrim input
  if s.length = 0 then
    ["filters:".data, inputLine input, caretLine (caret.getD 0)]
  else
    let parts := splitWs s
    ["filters:".data, "  and:".data] ++ parts.map (clauseLine allTags modes) ++
      [inputLine input, caretLine (caret.getD input.length)]

/-- `buildFiltersFromInput` from src/main.ts, lines 155-193. -/
def buildFiltersFromInput (input : List Char) (allTags : List Tag) (caret : Option Nat)
    (modes : MatchSettings) : List Char :=
  joinNL (buildFiltersLines input allTags caret modes)

/-- The group captured by `\s*(.+)$` on the rest of a line: greedy `\s*`, and
`(.+)` must capture at least one character (backtracking leaves the last
whitespace character when the rest is all whitespace). -/
def regexGroupDotPlus (tail : List Char) : Option (List Char) :=
  match tail.getLast? with
  | none => none
  | some c =>
    let d := tail.dropWhile isJsWs
    if d.isEmpty then some [c] else some d

/-- Match of `/^#\s*INPUT:\s*(.+)$/` against one line. -/
def matchInputLine (line : List Char) : Option (List Char) :=
  match line with
  | c :: rest =>
    if c = '#' then
      let r2 := rest.dropWhile isJsWs
      if "INPUT:".data.isPrefixOf r2 then regexGroupDotPlus (r2.drop 6) else none
    else none
  | [] => none

/-- Match of `/^#\s*CARET:\s*(\d+)$/` against one line. -/
def matchCaretLine (line : List Char) : Option (List Char) :=
  match line with
  | c :: rest =>
    if c = '#' then
      let r2 := rest.dropWhile isJsWs
      if "CARET:".data.isPrefixOf r2 then
        let d := (r2.drop 6).dropWhile isJsWs
        if d.isEmpty then none else if d.all isDigitCh then some d else none
      else none
    else none
  | [] => none

/-- First line (top to bottom) on which the line pattern matches — the match
found by a `/m` regex on the whole segment. -/
def firstLineMatch (f : List Char → Option (List Char)) : List (List Char) → Option (List Char)
  | [] => none
  | l :: ls => match f l with | some g => some g | none => firstLineMatch f ls

structure SavedState where
  input : List Char
  caret : Nat
deriving DecidableEq, Repr

/-- `extractSavedState` from src/main.ts, lines 73-83 (the `isNaN` fallback is
unreachable: `(\d+)` only matches decimal digits, so `parseInt` succeeds). -/
def extractSavedState (text : List Char) : Option SavedState :=
  match findBaseBlock text with
  | none => none
  | some info =>
    let segment := (text.take info.filtersEnd).drop info.filtersStart
    let lines := splitNL segment
    let mInput := firstLineMatch matchInputLine lines
    let mCaret := firstLineMatch matchCaretLine lines
    match mInput, mCaret with
    | none, none => none
    | mi, mc =>
      let input := match mi with | some g => decodeState (jsTrim g) | none => []
      let caret := match mc with | some d => parseDec d | none => input.length
      some ⟨input, caret⟩

/-- JS `left.lastIndexOf(" ")`. -/
def lastIndexOfSpace (l : List Char) : Option Nat :=
  match l.reverse.findIdx? (fun c => c = ' ') with
  | some j => some (l.length - 1 - j)
  | none => none

/-- The space-delimited token at the caret (`TagSuggest.getSuggestions`,
lines 214-219). -/
def currentToken (value : List Char) (caret : Nat) : List Char :=
  let left := value.take caret
  let start := match lastIndexOfSpace left with | some i => i + 1 | none => 0
  (value.take caret).drop start

/-- `TagSuggest.getSuggestions` from src/main.ts, lines 213-246. -/
def getSuggestions (allTags : List Tag) (value : List Char) (caret : Nat)
    (modes : MatchSettings) : List (List Char) :=
  let token := currentToken value caret
  if token.isEmpty then []
  else
    let base := if token.head? = some '#' then token.drop 1 else token
    let pref := if modes.enablePrefix then prefixMatch allTags base 100 else []
    let suff := if modes.enableSuffix then suffixMatch allTags base 100 else []
    let subs := if modes.enableSubstring then substringMatch allTags base 100 else []
    (merge12 pref suff subs).map (fun t => '#' :: t)

/-- Trace semantics of `debounceDynamic` (src/main.ts, lines 56-63) on a
timeline: `events` is the list of `(time, captured argument)` calls of the
debounced function in time order, `pending` the currently scheduled
`(fireTime, argument)` timeout. A pending timeout fires when its fire time
arrives before the next call; each call clears any pending timeout and
schedules a new one `ms` later. Returns the list of fires. -/
def debounceRun {α : Type} (ms : Nat) : List (Nat × α) → Option (Nat × α) → List (Nat × α)
  | [], pending => pending.toList
  | (t, v) :: rest, pending =>
    match pending with
    | some sw =>
      if sw.1 ≤ t then sw :: debounceRun ms rest (some (t + ms, v))
      else debounceRun ms rest (some (t + ms, v))
    | none => debounceRun ms rest (some (t + ms, v))

/-- Run a debounced function from the idle state. -/
def runDebounce {α : Type} (ms : Nat) (events : List (Nat × α)) : List (Nat × α) :=
  debounceRun ms events none

/-- A document laid out like the template of `findOrInsertBaseBlock`: a `base`
fence whose managed region body is `body`. -/
def mkDoc (body : List Char) : List Char :=
  "```base\n".data ++ BEGIN_MARK ++ '\n' :: body ++ '\n' :: END_MARK ++ "\n```\n".data

/-- A document whose begin/end markers sit after the fence close. -/
def cexDoc : List Char := "```base\nx\n```\n".data ++ BEGIN_MARK ++ '\n' :: END_MARK

/-- A document whose end marker precedes its begin marker after the fence. -/
def cexDocRev : List Char :=
  "```base\n".data ++ END_MARK ++ '\n' :: BEGIN_MARK ++ "\n```\n".data

/-- The token lists `uriTokens` recovers from the encoding of one character. -/
def encToks (c : Char) : List (Char ⊕ Nat) :=
  if isUnreservedURI c then [Sum.inl c] else (utf8Bytes c.toNat).map Sum.inr

/-! ### Generic lemmas about `firstOcc`, prefixes and infixes -/

theorem firstOcc_of_pre {t pat : List Char} (h : pat <+: t) : firstOcc t pat = some 0 := by
  cases t with
  | nil => simp [firstOcc, List.isPrefixOf_iff_prefix.2 h]
  | cons c t2 => simp [firstOcc, List.isPrefixOf_iff_prefix.2 h]

theorem firstOcc_some {t pat : List Char} {i : Nat} (h : firstOcc t pat = some i) :
    pat <+: t.drop i := by
  induction t generalizing i with
  | nil =>
    by_cases hp : pat.isPrefixOf ([] : List Char)
    · simp only [firstOcc, hp, if_true] at h
      cases h
      simpa using List.isPrefixOf_iff_prefix.1 hp
    · simp [firstOcc, hp] at h
  | cons c t ih =>
    by_cases hp : pat.isPrefixOf (c :: t)
    · simp only [firstOcc, hp, if_true] at h
      cases h
      simpa using List.isPrefixOf_iff_prefix.1 hp
    · simp only [firstOcc, hp, if_false, Bool.false_eq_true, Option.map_eq_some'] at h
      obtain ⟨j, hj, rfl⟩ := h
      simpa [List.drop_succ_cons] using ih hj

theorem firstOcc_bound {t pat : List Char} {i : Nat} (h : firstOcc t pat = some i)
    (hne : pat ≠ []) : i + pat.length ≤ t.length := by
  have hp := firstOcc_some h
  have hlen := hp.length_le
  rw [List.length_drop] at hlen
  have : 1 ≤ pat.length := List.length_pos_of_ne_nil hne
  omega

theorem firstOcc_append {pat A B : List Char}
    (h : ∀ m, m < A.length → ¬ pat <+: (A.drop m ++ B)) :
    firstOcc (A ++ B) pat = (firstOcc B pat).map (fun i => i + A.length) := by
  induction A with
  | nil =>
    simp only [List.nil_append, List.length_nil]
    cases firstOcc B pat <;> simp
  | cons a A ih =>
    have h0 : ¬ pat.isPrefixOf (a :: (A ++ B)) = true := by
      intro hp
      exact h 0 (by simp) (by simpa using List.isPrefixOf_iff_prefix.1 hp)
    have h0' : pat.isPrefixOf (a :: (A ++ B)) = false := by
      cases hb : pat.isPrefixOf (a :: (A ++ B))
      · rfl
      · exact absurd hb h0
    have hstep : firstOcc ((a :: A) ++ B) pat =
        (firstOcc (A ++ B) pat).map (fun i => i + 1) := by
      simp only [List.cons_append, firstOcc]
      simp [h0']
    rw [hstep]
    have ih2 := ih (fun m hm => by
      have := h (m + 1) (by simp only [List.length_cons]; omega)
      simpa [List.drop_succ_cons] using this)
    rw [ih2, Option.map_map]
    cases firstOcc B pat <;> simp [Nat.add_assoc, Nat.add_comm 1 A.length]

theorem prefix_of_append_of_length_le {p u v : List Char} (h : p <+: u ++ v)
    (hl : p.length ≤ u.length) : p <+: u := by
  have hu : u <+: u ++ v := List.prefix_append u v
  exact List.prefix_of_prefix_length_le h hu hl

theorem infix_iff_exists_drop {p l : List Char} : p <:+: l ↔ ∃ n, p <+: l.drop n := by
  constructor
  · rintro ⟨s, t, rfl⟩
    refine ⟨s.length, ?_⟩
    rw [List.append_assoc, List.drop_left]
    exact List.prefix_append p t
  · rintro ⟨n, t, ht⟩
    exact ⟨l.take n, t, by rw [List.append_assoc, ht, List.take_append_drop]⟩

theorem mem_of_inf {p l : List Char} (h : p <:+: l) {c : Char} (hc : c ∈ p) : c ∈ l :=
  h.sublist.subset hc

theorem not_infix_of_not_mem {p l : List Char} {c : Char} (hc : c ∈ p) (hl : c ∉ l) :
    ¬ p <:+: l := fun h => hl (mem_of_inf h hc)

theorem pre_drop_inf {p l : List Char} {n : Nat} (h : p <+: l.drop n) : p <:+: l :=
  infix_iff_exists_drop.2 ⟨n, h⟩

theorem infix_pair_append {x y : Char} {a b : List Char} (h : [x, y] <:+: a ++ b) :
    [x, y] <:+: a ∨ [x, y] <:+: b ∨ (a.getLast? = some x ∧ b.head? = some y) := by
  obtain ⟨n, hp⟩ := infix_iff_exists_drop.1 h
  rcases Nat.lt_or_ge n a.length with hn | hn
  · rw [List.drop_append_of_le_length (Nat.le_of_lt hn)] at hp
    rcases Nat.lt_or_ge (n + 1) a.length with hn1 | hn1
    · left
      refine pre_drop_inf (n := n) (prefix_of_append_of_length_le hp ?_)
      simp [List.length_drop]
      omega
    · -- the pair straddles the boundary: `a.drop n = [x]`
      have hlen : (a.drop n).length = 1 := by
        rw [List.length_drop]
        omega
      obtain ⟨z, hz⟩ : ∃ z, a.drop n = [z] := by
        cases hd : a.drop n with
        | nil => rw [hd] at hlen; simp at hlen
        | cons z t =>
          rw [hd] at hlen
          simp at hlen
          exact ⟨z, by rw [hlen]⟩
      rw [hz] at hp
      simp only [List.singleton_append, List.cons_prefix_cons] at hp
      obtain ⟨rfl, hyp⟩ := hp
      right; right
      constructor
      · have : a = a.take n ++ [x] := by rw [← hz, List.take_append_drop]
        rw [this]
        simp
      · obtain ⟨t, ht⟩ := hyp
        rw [← ht]
        simp
  · right; left
    have : n = a.length + (n - a.length) := by omega
    rw [this, List.drop_append] at hp
    exact pre_drop_inf hp

theorem not_prefix_of_head_mem {p : List Char} {c : Char} {u B : List Char} (hu : u ≠ [])
    (hmem : ∀ x ∈ u, x ≠ c) : ¬ (c :: p) <+: (u ++ B) := by
  obtain ⟨x, rest, rfl⟩ := List.exists_cons_of_ne_nil hu
  intro hp
  rw [List.cons_append, List.cons_prefix_cons] at hp
  exact hmem x (by simp) hp.1.symm

/-- No occurrence of a newline-free pattern can start inside `line ++ ['\n']`
when the pattern is not an infix of `line`. -/
theorem notStart_line {pat line : List Char} (B : List Char) (hne : pat ≠ [])
    (hnl : '\n' ∉ pat) (hinf : ¬ pat <:+: line) (hlnl : '\n' ∉ line) :
    ∀ m, m < (line ++ ['\n']).length → ¬ pat <+: ((line ++ ['\n']).drop m ++ B) := by
  intro m hm hp
  rw [List.length_append, List.length_singleton] at hm
  rcases Nat.lt_or_ge m line.length with hmlt | hmge
  · rw [List.drop_append_of_le_length (Nat.le_of_lt hmlt), List.append_assoc,
      List.singleton_append] at hp
    rcases le_or_lt pat.length (line.drop m).length with hle | hgt
    · exact hinf (pre_drop_inf (prefix_of_append_of_length_le hp hle))
    · have hpre2 : (line.drop m ++ ['\n']) <+: (line.drop m ++ '\n' :: B) :=
        ⟨B, by rw [List.append_assoc, List.singleton_append]⟩
      have hsub : (line.drop m ++ ['\n']) <+: pat := by
        refine List.prefix_of_prefix_length_le hpre2 hp ?_
        rw [List.length_append, List.length_singleton]
        omega
      exact hnl (hsub.sublist.subset (by simp))
  · have hm' : m = line.length := by omega
    rw [hm', List.drop_append_of_le_length (Nat.le_refl _), List.drop_length,
      List.nil_append, List.singleton_append] at hp
    obtain ⟨c, p2, rfl⟩ := List.exists_cons_of_ne_nil hne
    rw [List.cons_prefix_cons] at hp
    exact hnl (by simp [hp.1])

/-- No occurrence of `'\n' :: p` can start inside `line ++ ['\n']` when `p` is
not a prefix of what follows. -/
theorem notStart_nlpat {p line B : List Char} (hlnl : '\n' ∉ line) (hB : ¬ p <+: B) :
    ∀ m, m < (line ++ ['\n']).length → ¬ ('\n' :: p) <+: ((line ++ ['\n']).drop m ++ B) := by
  intro m hm hp
  rw [List.length_append, List.length_singleton] at hm
  rcases Nat.lt_or_ge m line.length with hmlt | hmge
  · rw [List.drop_append_of_le_length (Nat.le_of_lt hmlt), List.append_assoc] at hp
    have hdne : line.drop m ≠ [] := by
      intro hnil
      have := congrArg List.length hnil
      rw [List.length_drop] at this
      simp at this
      omega
    refine not_prefix_of_head_mem hdne ?_ hp
    intro x hx heq
    exact hlnl (heq ▸ (List.drop_sublist m line).subset hx)
  · have hm' : m = line.length := by omega
    rw [hm', List.drop_append_of_le_length (Nat.le_refl _), List.drop_length,
      List.nil_append, List.singleton_append, List.cons_prefix_cons] at hp
    exact hB hp.2

/-- The first occurrence of `'\n' :: p` in `line ++ '\n' :: B` is exactly at the
end of the newline-free `line` when `p` starts `B`. -/
theorem firstOcc_nl_boundary {p line B : List Char} (hlnl : '\n' ∉ line) (hp : p <+: B) :
    firstOcc (line ++ '\n' :: B) ('\n' :: p) = some line.length := by
  have h1 : ∀ m, m < line.length → ¬ ('\n' :: p) <+: (line.drop m ++ '\n' :: B) := by
    intro m hm hpre
    have hdne : line.drop m ≠ [] := by
      intro hnil
      have := congrArg List.length hnil
      rw [List.length_drop] at this
      simp at this
      omega
    refine not_prefix_of_head_mem (B := '\n' :: B) hdne ?_ hpre
    intro x hx heq
    exact hlnl (heq ▸ (List.drop_sublist m line).subset hx)
  rw [firstOcc_append h1, firstOcc_of_pre (by rw [List.cons_prefix_cons]; exact ⟨rfl, hp⟩)]
  simp

/-! ### Lemmas about `joinNL`, `splitNL`, `jsTrim`, `splitWs` -/

theorem joinNL_cons {l : List Char} {ls : List (List Char)} (h : ls ≠ []) :
    joinNL (l :: ls) = l ++ '\n' :: joinNL ls := by
  cases ls with
  | nil => exact absurd rfl h
  | cons l2 ls2 => rfl

theorem splitNL_nonl {l : List Char} (h : '\n' ∉ l) : splitNL l = [l] := by
  induction l with
  | nil => rfl
  | cons c rest ih =>
    have hc : ¬ c = '\n' := fun hc => h (by simp [hc])
    have ih2 := ih (fun hm => h (by simp [hm]))
    simp [splitNL, hc, ih2]

theorem splitNL_append {l rest : List Char} (h : '\n' ∉ l) :
    splitNL (l ++ '\n' :: rest) = l :: splitNL rest := by
  induction l with
  | nil => simp [splitNL]
  | cons c l2 ih =>
    have hc : ¬ c = '\n' := fun hc => h (by simp [hc])
    have ih2 := ih (fun hm => h (by simp [hm]))
    simp [splitNL, hc, ih2]

theorem splitNL_joinNL {lines : List (List Char)} (hne : lines ≠ [])
    (h : ∀ l ∈ lines, '\n' ∉ l) : splitNL (joinNL lines) = lines := by
  induction lines with
  | nil => exact absurd rfl hne
  | cons l ls ih =>
    cases ls with
    | nil => exact splitNL_nonl (h l (by simp))
    | cons l2 ls2 =>
      rw [joinNL_cons (by simp), splitNL_append (h l (by simp))]
      rw [ih (by simp) (fun x hx => h x (by simp [hx]))]

theorem dropWhile_all_false {p : Char → Bool} {s : List Char}
    (h : ∀ c ∈ s, p c = false) : s.dropWhile p = s := by
  induction s with
  | nil => rfl
  | cons c rest ih =>
    rw [List.dropWhile_cons, h c (by simp)]
    simp

theorem jsTrim_eq_self {s : List Char} (h : ∀ c ∈ s, isJsWs c = false) : jsTrim s = s := by
  unfold jsTrim
  rw [dropWhile_all_false h, dropWhile_all_false (by simpa using fun c hc => h c hc),
    List.reverse_reverse]

theorem jsTrim_eq_nil {s : List Char} (h : jsTrim s = []) : ∀ c ∈ s, isJsWs c = true := by
  unfold jsTrim at h
  rw [List.reverse_eq_nil_iff, List.dropWhile_eq_nil_iff] at h
  intro c hc
  have hsplit : c ∈ s.takeWhile isJsWs ++ s.dropWhile isJsWs := by
    rw [List.takeWhile_append_dropWhile]
    exact hc
  rcases List.mem_append.1 hsplit with h1 | h1
  · exact List.mem_takeWhile_imp h1
  · exact h c (by simp [h1])

theorem splitWsTokens_mem {s : List Char} :
    ∀ {acc}, (∀ c ∈ acc, isJsWs c = false) →
      ∀ t ∈ splitWsTokens s acc, t ≠ [] ∧ ∀ c ∈ t, isJsWs c = false := by
  induction s with
  | nil =>
    intro acc hacc t ht
    by_cases hae : acc.isEmpty
    · simp [splitWsTokens, hae] at ht
    · simp only [splitWsTokens, hae, if_false, Bool.false_eq_true, List.mem_singleton] at ht
      subst ht
      refine ⟨by simpa [List.isEmpty_iff] using hae, fun c hc => hacc c (by simpa using hc)⟩
  | cons c rest ih =>
    intro acc hacc t ht
    by_cases hws : isJsWs c
    · by_cases hae : acc.isEmpty
      · rw [show splitWsTokens (c :: rest) acc = splitWsTokens rest [] by
          simp [splitWsTokens, hws, hae]] at ht
        exact ih (by simp) t ht
      · rw [show splitWsTokens (c :: rest) acc = acc.reverse :: splitWsTokens rest [] by
          simp [splitWsTokens, hws, hae]] at ht
        rcases List.mem_cons.1 ht with rfl | ht2
        · refine ⟨by simpa [List.isEmpty_iff] using hae, fun x hx => hacc x (by simpa using hx)⟩
        · exact ih (by simp) t ht2
    · rw [show splitWsTokens (c :: rest) acc = splitWsTokens rest (c :: acc) by
        simp [splitWsTokens, hws]] at ht
      refine ih ?_ t ht
      intro x hx
      rcases List.mem_cons.1 hx with rfl | hx2
      · simpa using hws
      · exact hacc x hx2

theorem splitWs_mem {s : List Char} :
    ∀ t ∈ splitWs s, t ≠ [] ∧ ∀ c ∈ t, isJsWs c = false :=
  splitWsTokens_mem (by simp)

/-! ### Character-class facts -/

theorem char_toNat_lt (c : Char) : c.toNat < 1114112 := by
  show c.val.toNat < 1114112
  rcases c.valid with h | ⟨h1, h2⟩ <;> omega

theorem char_not_surrogate (c : Char) : c.toNat < 0xD800 ∨ 0xE000 ≤ c.toNat := by
  show c.val.toNat < 0xD800 ∨ 0xE000 ≤ c.val.toNat
  rcases c.valid with h | ⟨h1, h2⟩
  · left; omega
  · right; omega

theorem ne_of_toNat_ne {c d : Char} (h : c.toNat ≠ d.toNat) : c ≠ d :=
  fun he => h (by rw [he])

theorem ws_not_unres : ∀ n ∈ wsCodes, isUnreservedCode n = false := by decide

theorem unres_char_facts {c : Char} (h : isUnreservedURI c = true) :
    isJsWs c = false ∧ c.toNat ≠ 10 ∧ c.toNat ≠ 35 ∧ c.toNat ≠ 96 ∧ c.toNat ≠ 34 ∧
      c.toNat ≠ 37 ∧ c.toNat ≠ 32 := by
  have hn : isUnreservedCode c.toNat = true := h
  refine ⟨?_, ?_, ?_, ?_, ?_, ?_, ?_⟩
  · cases hws : isJsWs c
    · rfl
    · have hmem : c.toNat ∈ wsCodes := by simpa [isJsWs] using hws
      rw [ws_not_unres _ hmem] at hn
      exact absurd hn (by simp)
  all_goals intro heq
  all_goals rw [heq] at hn
  all_goals exact absurd hn (by decide)

theorem not_ws_ne_nl {c : Char} (h : isJsWs c = false) : c ≠ '\n' := by
  intro heq
  subst heq
  exact absurd h (by decide)

theorem utf8Bytes_lt {n : Nat} (h : n < 1114112) : ∀ b ∈ utf8Bytes n, b < 256 := by
  unfold utf8Bytes
  split_ifs with h1 h2 h3 <;> intro b hb <;>
    simp only [List.mem_cons, List.mem_singleton, List.not_mem_nil, or_false] at hb
  · omega
  · rcases hb with rfl | rfl <;> omega
  · rcases hb with rfl | rfl | rfl <;> omega
  · rcases hb with rfl | rfl | rfl | rfl <;> omega

theorem hexDigitChar_facts : ∀ m, m < 16 →
    isUnreservedURI (hexDigitChar m) = true ∧ hexVal (hexDigitChar m) = some m := by decide

theorem percent_facts : isJsWs '%' = false ∧ ('%' : Char).toNat = 37 := by decide

theorem encodeChar_mem {c : Char} : ∀ x ∈ encodeChar c,
    isUnreservedURI x = true ∨ x = '%' ∨ ∃ m, m < 16 ∧ x = hexDigitChar m := by
  intro x hx
  unfold encodeChar at hx
  by_cases hu : isUnreservedURI c
  · rw [if_pos hu] at hx
    simp at hx
    subst hx
    exact Or.inl hu
  · rw [if_neg hu] at hx
    rw [List.mem_flatten] at hx
    obtain ⟨l, hl, hxl⟩ := hx
    rw [List.mem_map] at hl
    obtain ⟨b, hb, rfl⟩ := hl
    have hblt : b < 256 := utf8Bytes_lt (char_toNat_lt c) b hb
    unfold percentByte at hxl
    simp only [List.mem_cons, List.mem_singleton, List.not_mem_nil, or_false] at hxl
    rcases hxl with rfl | rfl | rfl
    · exact Or.inr (Or.inl rfl)
    · exact Or.inr (Or.inr ⟨b / 16, by omega, rfl⟩)
    · exact Or.inr (Or.inr ⟨b % 16, by omega, rfl⟩)

theorem encodeState_mem {s : List Char} : ∀ x ∈ encodeState s,
    isUnreservedURI x = true ∨ x = '%' ∨ ∃ m, m < 16 ∧ x = hexDigitChar m := by
  intro x hx
  unfold encodeState at hx
  rw [List.mem_flatten] at hx
  obtain ⟨l, hl, hxl⟩ := hx
  rw [List.mem_map] at hl
  obtain ⟨c, _, rfl⟩ := hl
  exact encodeChar_mem x hxl

/-- Every character of an encoded string is non-whitespace and is none of
`'\n'`, `'#'`, `` '`' ``, `'"'`. -/
theorem encodeState_props {s : List Char} : ∀ x ∈ encodeState s,
    isJsWs x = false ∧ x.toNat ≠ 10 ∧ x.toNat ≠ 35 ∧ x.toNat ≠ 96 ∧ x.toNat ≠ 34 := by
  intro x hx
  rcases encodeState_mem x hx with hu | rfl | ⟨m, hm, rfl⟩
  · obtain ⟨a, b, c', d, e, _, _⟩ := unres_char_facts hu
    exact ⟨a, b, c', d, e⟩
  · exact ⟨by decide, by decide, by decide, by decide, by decide⟩
  · have hu := (hexDigitChar_facts m hm).1
    obtain ⟨a, b, c', d, e, _, _⟩ := unres_char_facts hu
    exact ⟨a, b, c', d, e⟩

theorem ws_not_unres_char {c : Char} (h : isJsWs c = true) : isUnreservedURI c = false := by
  have hmem : c.toNat ∈ wsCodes := by simpa [isJsWs] using h
  exact ws_not_unres _ hmem

/-- Encoding a whitespace character yields only `%` and hex digits. -/
theorem encodeChar_ws {c : Char} (h : isJsWs c = true) : ∀ x ∈ encodeChar c,
    x = '%' ∨ ∃ m, m < 16 ∧ x = hexDigitChar m := by
  intro x hx
  rcases encodeChar_mem x hx with hu | hr | hr
  · -- impossible: x would be c itself; rule it out by re-running the case split
    unfold encodeChar at hx
    rw [if_neg (by rw [ws_not_unres_char h]; simp)] at hx
    rw [List.mem_flatten] at hx
    obtain ⟨l, hl, hxl⟩ := hx
    rw [List.mem_map] at hl
    obtain ⟨b, hb, rfl⟩ := hl
    have hblt : b < 256 := utf8Bytes_lt (char_toNat_lt c) b hb
    unfold percentByte at hxl
    simp only [List.mem_cons, List.mem_singleton, List.not_mem_nil, or_false] at hxl
    rcases hxl with rfl | rfl | rfl
    · exact Or.inl rfl
    · exact Or.inr ⟨b / 16, by omega, rfl⟩
    · exact Or.inr ⟨b % 16, by omega, rfl⟩
  · exact Or.inl hr
  · exact Or.inr hr

/-! ### `decodeState ∘ encodeState = id` -/

theorem uriTokens_percent {b : Nat} (hb : b < 256) {rest : List Char} :
    uriTokens (percentByte b ++ rest) =
      (uriTokens rest).map (fun ts => Sum.inr b :: ts) := by
  have hhi := (hexDigitChar_facts (b / 16) (by omega)).2
  have hlo := (hexDigitChar_facts (b % 16) (by omega)).2
  show uriTokens ('%' :: hexDigitChar (b / 16) :: hexDigitChar (b % 16) :: rest) = _
  conv_lhs => rw [uriTokens.eq_def]
  simp only []
  rw [if_pos trivial]
  rw [hhi, hlo]
  simp only []
  have hb2 : 16 * (b / 16) + b % 16 = b := by omega
  rw [hb2]

theorem uriTokens_cons_ne {c : Char} (hne : ¬ c = '%') {rest : List Char} :
    uriTokens (c :: rest) = (uriTokens rest).map (fun ts => Sum.inl c :: ts) := by
  conv_lhs => rw [uriTokens.eq_def]
  simp only [if_neg hne]

theorem uriTokens_encodeChar {c : Char} {rest : List Char} :
    uriTokens (encodeChar c ++ rest) = (uriTokens rest).map (fun ts => encToks c ++ ts) := by
  by_cases hu : isUnreservedURI c
  · have hne : ¬ c = '%' := by
      intro heq
      have := (unres_char_facts hu).2.2.2.2.2.1
      rw [heq] at this
      exact this (by decide)
    simp only [encodeChar, encToks, hu, if_true]
    rw [List.singleton_append, uriTokens_cons_ne hne]
    cases uriTokens rest <;> simp
  · simp only [encodeChar, encToks, hu, if_false, Bool.false_eq_true]
    have hbs : ∀ b ∈ utf8Bytes c.toNat, b < 256 := utf8Bytes_lt (char_toNat_lt c)
    revert hbs
    generalize utf8Bytes c.toNat = bs
    intro hbs
    induction bs with
    | nil =>
      simp only [List.map_nil, List.flatten_nil, List.nil_append]
      cases uriTokens rest <;> simp
    | cons b bs ih =>
      rw [List.map_cons, List.flatten_cons, List.append_assoc,
        uriTokens_percent (hbs b (by simp)), ih (fun x hx => hbs x (by simp [hx])),
        Option.map_map]
      cases uriTokens rest <;> simp

theorem contVal_cont {n : Nat} (h1 : 0x80 ≤ n) (h2 : n < 0xC0) :
    contVal (Sum.inr n) = some (n - 0x80) := by
  simp only [contVal]
  rw [if_pos ⟨h1, h2⟩]

theorem cont1_cont {n : Nat} (h1 : 0x80 ≤ n) (h2 : n < 0xC0) (ts : List (Char ⊕ Nat)) :
    cont1 (Sum.inr n :: ts) = some (n - 0x80, ts) := by
  simp only [cont1, contVal_cont h1 h2, Option.map_some']

theorem decodeToks_byte1 {n : Nat} (h : n < 0x80) {ts : List (Char ⊕ Nat)} :
    decodeToks (Sum.inr n :: ts) = (decodeToks ts).map (fun l => Char.ofNat n :: l) := by
  rw [decodeToks]
  rw [if_pos h]

theorem decodeToks_byte2 {n : Nat} (h1 : 0x80 ≤ n) (h2 : n < 0x800) {ts : List (Char ⊕ Nat)} :
    decodeToks (Sum.inr (0xC0 + n / 64) :: Sum.inr (0x80 + n % 64) :: ts) =
      (decodeToks ts).map (fun l => Char.ofNat n :: l) := by
  rw [decodeToks]
  rw [if_neg (by omega), if_neg (by omega), if_pos (by omega)]
  rw [cont1_cont (by omega) (by omega)]
  simp only []
  have hv : (0xC0 + n / 64 - 0xC0) * 64 + (0x80 + n % 64 - 0x80) = n := by omega
  rw [hv]
  rw [if_pos h1]

theorem decodeToks_byte3 {n : Nat} (h1 : 0x800 ≤ n) (h2 : n < 0x10000)
    (hs : n < 0xD800 ∨ 0xE000 ≤ n) {ts : List (Char ⊕ Nat)} :
    decodeToks (Sum.inr (0xE0 + n / 4096) :: Sum.inr (0x80 + n / 64 % 64) ::
        Sum.inr (0x80 + n % 64) :: ts) =
      (decodeToks ts).map (fun l => Char.ofNat n :: l) := by
  rw [decodeToks]
  rw [if_neg (by omega), if_neg (by omega), if_neg (by omega), if_pos (by omega)]
  rw [cont1_cont (by omega) (by omega)]
  simp only []
  rw [cont1_cont (by omega) (by omega)]
  simp only []
  have hv : (0xE0 + n / 4096 - 0xE0) * 4096 + (0x80 + n / 64 % 64 - 0x80) * 64 +
      (0x80 + n % 64 - 0x80) = n := by omega
  rw [hv]
  rw [if_pos ⟨h1, hs⟩]

theorem decodeToks_byte4 {n : Nat} (h1 : 0x10000 ≤ n) (h2 : n < 0x110000)
    {ts : List (Char ⊕ Nat)} :
    decodeToks (Sum.inr (0xF0 + n / 262144) :: Sum.inr (0x80 + n / 4096 % 64) ::
        Sum.inr (0x80 + n / 64 % 64) :: Sum.inr (0x80 + n % 64) :: ts) =
      (decodeToks ts).map (fun l => Char.ofNat n :: l) := by
  rw [decodeToks]
  rw [if_neg (by omega), if_neg (by omega), if_neg (by omega), if_neg (by omega),
    if_pos (by omega)]
  rw [cont1_cont (by omega) (by omega)]
  simp only []
  rw [cont1_cont (by omega) (by omega)]
  simp only []
  rw [cont1_cont (by omega) (by omega)]
  simp only []
  have hv : (0xF0 + n / 262144 - 0xF0) * 262144 + (0x80 + n / 4096 % 64 - 0x80) * 4096 +
      (0x80 + n / 64 % 64 - 0x80) * 64 + (0x80 + n % 64 - 0x80) = n := by omega
  rw [hv]
  rw [if_pos ⟨h1, h2⟩]

theorem decodeToks_inl {c : Char} {ts : List (Char ⊕ Nat)} :
    decodeToks (Sum.inl c :: ts) = (decodeToks ts).map (fun l => c :: l) := by
  rw [decodeToks]

theorem decodeToks_encToks {c : Char} {ts : List (Char ⊕ Nat)} :
    decodeToks (encToks c ++ ts) = (decodeToks ts).map (fun l => c :: l) := by
  by_cases hu : isUnreservedURI c
  · simp only [encToks, hu, if_true, List.singleton_append]
    exact decodeToks_inl
  · simp only [encToks, hu, if_false, Bool.false_eq_true]
    have hlt := char_toNat_lt c
    have hsur := char_not_surrogate c
    by_cases h1 : c.toNat < 0x80
    · rw [show utf8Bytes c.toNat = [c.toNat] from by unfold utf8Bytes; rw [if_pos h1]]
      rw [List.map_singleton, List.singleton_append, decodeToks_byte1 h1, Char.ofNat_toNat]
    · by_cases h2 : c.toNat < 0x800
      · rw [show utf8Bytes c.toNat = [0xC0 + c.toNat / 64, 0x80 + c.toNat % 64] from by
          unfold utf8Bytes; rw [if_neg h1, if_pos h2]]
        rw [show ([0xC0 + c.toNat / 64, 0x80 + c.toNat % 64].map Sum.inr) ++ ts =
          (Sum.inr (0xC0 + c.toNat / 64) :: Sum.inr (0x80 + c.toNat % 64) ::
            ts : List (Char ⊕ Nat)) from rfl]
        rw [decodeToks_byte2 (by omega) h2, Char.ofNat_toNat]
      · by_cases h3 : c.toNat < 0x10000
        · rw [show utf8Bytes c.toNat =
              [0xE0 + c.toNat / 4096, 0x80 + c.toNat / 64 % 64, 0x80 + c.toNat % 64] from by
            unfold utf8Bytes; rw [if_neg h1, if_neg h2, if_pos h3]]
          rw [show ([0xE0 + c.toNat / 4096, 0x80 + c.toNat / 64 % 64,
              0x80 + c.toNat % 64].map Sum.inr) ++ ts =
            (Sum.inr (0xE0 + c.toNat / 4096) :: Sum.inr (0x80 + c.toNat / 64 % 64) ::
              Sum.inr (0x80 + c.toNat % 64) :: ts : List (Char ⊕ Nat)) from rfl]
          rw [decodeToks_byte3 (by omega) h3 hsur, Char.ofNat_toNat]
        · rw [show utf8Bytes c.toNat =
              [0xF0 + c.toNat / 262144, 0x80 + c.toNat / 4096 % 64,
               0x80 + c.toNat / 64 % 64, 0x80 + c.toNat % 64] from by
            unfold utf8Bytes; rw [if_neg h1, if_neg h2, if_neg h3]]
          rw [show ([0xF0 + c.toNat / 262144, 0x80 + c.toNat / 4096 % 64,
              0x80 + c.toNat / 64 % 64, 0x80 + c.toNat % 64].map Sum.inr) ++ ts =
            (Sum.inr (0xF0 + c.toNat / 262144) :: Sum.inr (0x80 + c.toNat / 4096 % 64) ::
              Sum.inr (0x80 + c.toNat / 64 % 64) :: Sum.inr (0x80 + c.toNat % 64) ::
              ts : List (Char ⊕ Nat)) from rfl]
          rw [decodeToks_byte4 (by omega) hlt, Char.ofNat_toNat]

theorem uriTokens_encodeState {s rest : List Char} :
    uriTokens (encodeState s ++ rest) =
      (uriTokens rest).map (fun ts => (s.map encToks).flatten ++ ts) := by
  induction s with
  | nil =>
    simp only [encodeState, List.map_nil, List.flatten_nil, List.nil_append]
    cases uriTokens rest <;> simp
  | cons c s2 ih =>
    rw [show encodeState (c :: s2) = encodeChar c ++ encodeState s2 from by
      simp [encodeState]]
    rw [List.append_assoc, uriTokens_encodeChar, ih, Option.map_map]
    cases uriTokens rest <;> simp

theorem decodeToks_encList {s : List Char} {ts : List (Char ⊕ Nat)} :
    decodeToks ((s.map encToks).flatten ++ ts) = (decodeToks ts).map (fun l => s ++ l) := by
  induction s with
  | nil =>
    simp only [List.map_nil, List.flatten_nil, List.nil_append]
    cases decodeToks ts <;> simp
  | cons c s2 ih =>
    rw [List.map_cons, List.flatten_cons, List.append_assoc, decodeToks_encToks, ih,
      Option.map_map]
    cases decodeToks ts <;> simp

/-- `decodeURIComponent` is a left inverse of `encodeURIComponent`. -/
theorem decode_encode (s : List Char) : decodeState (encodeState s) = s := by
  have h0 : uriTokens ([] : List Char) = some [] := rfl
  have h0d : decodeToks [] = some [] := by rw [decodeToks]
  have h1 : uriTokens (encodeState s) = some ((s.map encToks).flatten) := by
    have h := @uriTokens_encodeState s []
    rw [List.append_nil] at h
    rw [h, h0]
    simp
  have h2 : decodeToks ((s.map encToks).flatten) = some s := by
    have h := @decodeToks_encList s []
    rw [List.append_nil] at h
    rw [h, h0d]
    simp
  unfold decodeState
  rw [h1]
  show (decodeToks ((List.map encToks s).flatten)).getD (encodeState s) = s
  rw [h2]
  rfl

/-! ### Decimal print/parse -/

theorem digitChar_facts : ∀ m, m < 10 →
    (digitChar m).toNat = 48 + m ∧ isDigitCh (digitChar m) = true := by decide

theorem toDecRev_digits : ∀ n, ∀ c ∈ toDecRev n, isDigitCh c = true := by
  intro n
  induction n using Nat.strong_induction_on with
  | _ n ih =>
    rw [toDecRev]
    by_cases h : n < 10
    · rw [if_pos h]
      intro c hc
      simp at hc
      subst hc
      exact (digitChar_facts n h).2
    · rw [if_neg h]
      intro c hc
      rcases List.mem_cons.1 hc with rfl | hc2
      · exact (digitChar_facts (n % 10) (by omega)).2
      · exact ih (n / 10) (Nat.div_lt_self (by omega) (by omega)) c hc2

theorem natToDec_digits {n : Nat} : ∀ c ∈ natToDec n, isDigitCh c = true := by
  intro c hc
  exact toDecRev_digits n c (by simpa [natToDec] using hc)

theorem natToDec_ne_nil {n : Nat} : natToDec n ≠ [] := by
  unfold natToDec
  intro h
  rw [List.reverse_eq_nil_iff] at h
  rw [toDecRev] at h
  by_cases hlt : n < 10
  · rw [if_pos hlt] at h; simp at h
  · rw [if_neg hlt] at h; simp at h

theorem parseDec_natToDec (n : Nat) : parseDec (natToDec n) = n := by
  induction n using Nat.strong_induction_on with
  | _ n ih =>
    unfold natToDec
    rw [toDecRev]
    by_cases h : n < 10
    · rw [if_pos h]
      show parseDec [digitChar n] = n
      unfold parseDec
      simp [(digitChar_facts n h).1]
    · rw [if_neg h]
      rw [List.reverse_cons]
      unfold parseDec
      rw [List.foldl_append]
      have ihn : List.foldl (fun a c => 10 * a + (c.toNat - 48)) 0 (toDecRev (n / 10)).reverse
          = n / 10 := ih (n / 10) (Nat.div_lt_self (by omega) (by omega))
      rw [ihn]
      simp only [List.foldl_cons, List.foldl_nil]
      rw [(digitChar_facts (n % 10) (by omega)).1]
      omega

theorem ws_codes_not_digit : ∀ n ∈ wsCodes, ¬ (48 ≤ n ∧ n ≤ 57) := by decide

/-! ### Lemmas about the matchers and the merge loops -/

theorem prefixMatch_sublist {all : List Tag} {q : List Char} {limit : Nat} :
    (prefixMatch all q limit).Sublist all := by
  simp only [prefixMatch]
  split_ifs
  · exact List.nil_sublist all
  · exact (List.take_sublist _ _).trans (List.filter_sublist all)

theorem suffixMatch_sublist {all : List Tag} {q : List Char} {limit : Nat} :
    (suffixMatch all q limit).Sublist all := by
  simp only [suffixMatch]
  split_ifs
  · exact List.nil_sublist all
  · exact (List.take_sublist _ _).trans (List.filter_sublist all)

theorem substringMatch_sublist {all : List Tag} {q : List Char} {limit : Nat} :
    (substringMatch all q limit).Sublist all := by
  simp only [substringMatch]
  split_ifs
  · exact List.nil_sublist all
  · exact (List.take_sublist _ _).trans (List.filter_sublist all)

theorem mergeTier_nil {cap : Nat} {seen merged : List Tag} :
    mergeTier cap seen merged [] = (seen, merged) := rfl

theorem mergeTier_cons_mem {cap : Nat} {seen merged : List Tag} {t : Tag} {ts : List Tag}
    (hmem : t ∈ seen) :
    mergeTier cap seen merged (t :: ts) =
      if cap ≤ merged.length then (seen, merged) else mergeTier cap seen merged ts := by
  simp [mergeTier, hmem]

theorem mergeTier_cons_new {cap : Nat} {seen merged : List Tag} {t : Tag} {ts : List Tag}
    (hmem : t ∉ seen) :
    mergeTier cap seen merged (t :: ts) =
      if cap ≤ merged.length + 1 then (t :: seen, merged ++ [t])
      else mergeTier cap (t :: seen) (merged ++ [t]) ts := by
  simp [mergeTier, hmem]

theorem mergeTier_length {cap : Nat} {ts : List Tag} :
    ∀ {seen merged : List Tag}, merged.length < cap →
      (mergeTier cap seen merged ts).2.length ≤ cap := by
  induction ts with
  | nil => intro seen merged h; rw [mergeTier_nil]; exact Nat.le_of_lt h
  | cons t ts ih =>
    intro seen merged h
    by_cases hmem : t ∈ seen
    · rw [mergeTier_cons_mem hmem, if_neg (by omega)]
      exact ih h
    · rw [mergeTier_cons_new hmem]
      by_cases hstop : cap ≤ merged.length + 1
      · rw [if_pos hstop]
        simp only [List.length_append, List.length_singleton]
        omega
      · rw [if_neg hstop]
        refine ih ?_
        simp only [List.length_append, List.length_singleton]
        omega

theorem mergeTier_append {cap : Nat} {a b : List Tag} :
    ∀ {seen merged : List Tag}, merged.length < cap →
      mergeTier cap seen merged (a ++ b) =
        (if (mergeTier cap seen merged a).2.length < cap
         then mergeTier cap (mergeTier cap seen merged a).1 (mergeTier cap seen merged a).2 b
         else mergeTier cap seen merged a) := by
  induction a with
  | nil =>
    intro seen merged h
    simp only [List.nil_append, mergeTier_nil]
    rw [if_pos h]
  | cons t a2 ih =>
    intro seen merged h
    rw [List.cons_append]
    by_cases hmem : t ∈ seen
    · rw [mergeTier_cons_mem hmem, mergeTier_cons_mem hmem,
        if_neg (by omega : ¬ cap ≤ merged.length), if_neg (by omega : ¬ cap ≤ merged.length)]
      exact ih h
    · rw [mergeTier_cons_new hmem, mergeTier_cons_new hmem]
      by_cases hstop : cap ≤ merged.length + 1
      · rw [if_pos hstop, if_pos hstop,
          if_neg (by simp only [List.length_append, List.length_singleton]; omega)]
      · rw [if_neg hstop, if_neg hstop]
        exact ih (by simp only [List.length_append, List.length_singleton]; omega)

/-- `merge12` is the single de-duplicating capped pass over the concatenation
of the three tiers. -/
theorem merge12_concat (pref suff subs : List Tag) :
    merge12 pref suff subs = (mergeTier 12 [] [] (pref ++ suff ++ subs)).2 := by
  simp only [merge12]
  rw [mergeTier_append (by simp), mergeTier_append (by simp)]

theorem merge12_length (pref suff subs : List Tag) :
    (merge12 pref suff subs).length ≤ 12 := by
  rw [merge12_concat]
  exact mergeTier_length (by simp)

theorem dedupAppend_nil {seen merged : List Tag} :
    dedupAppend seen merged [] = (seen, merged) := rfl

theorem dedupAppend_append {a b : List Tag} :
    ∀ {seen merged : List Tag},
      dedupAppend seen merged (a ++ b) =
        dedupAppend (dedupAppend seen merged a).1 (dedupAppend seen merged a).2 b := by
  induction a with
  | nil => intro seen merged; simp [dedupAppend]
  | cons t a2 ih =>
    intro seen merged
    rw [List.cons_append]
    by_cases hmem : t ∈ seen
    · simp only [dedupAppend, hmem, if_true]
      exact ih
    · simp only [dedupAppend, hmem, if_false]
      exact ih

/-- `mergeNoCap` is the single de-duplicating pass over the concatenation of
the three tiers. -/
theorem mergeNoCap_concat (pref suff subs : List Tag) :
    mergeNoCap pref suff subs = (dedupAppend [] [] (pref ++ suff ++ subs)).2 := by
  unfold mergeNoCap
  rw [dedupAppend_append, dedupAppend_append]

theorem dedupAppend_mem {ts : List Tag} :
    ∀ {seen merged x}, x ∈ (dedupAppend seen merged ts).2 → x ∈ merged ∨ x ∈ ts := by
  induction ts with
  | nil => intro seen merged x h; rw [dedupAppend_nil] at h; exact Or.inl h
  | cons t ts ih =>
    intro seen merged x h
    by_cases hmem : t ∈ seen
    · simp only [dedupAppend, hmem, if_true] at h
      rcases ih h with h2 | h2
      · exact Or.inl h2
      · exact Or.inr (by simp [h2])
    · simp only [dedupAppend, hmem, if_false] at h
      rcases ih h with h2 | h2
      · rcases List.mem_append.1 h2 with h3 | h3
        · exact Or.inl h3
        · exact Or.inr (by simp at h3; simp [h3])
      · exact Or.inr (by simp [h2])

theorem mergeNoCap_mem {pref suff subs : List Tag} {x : Tag}
    (h : x ∈ mergeNoCap pref suff subs) : x ∈ pref ∨ x ∈ suff ∨ x ∈ subs := by
  rw [mergeNoCap_concat] at h
  rcases dedupAppend_mem h with h2 | h2
  · simp at h2
  · simpa using h2

/-! ### Lemmas about `findBaseBlock` -/

theorem idxOf_facts {t pat : List Char} {start i : Nat} (h : idxOf t pat start = some i) :
    start ≤ i ∧ pat <+: t.drop i := by
  unfold idxOf at h
  rcases hf : firstOcc (t.drop start) pat with _ | j
  · rw [hf] at h; simp at h
  · rw [hf] at h
    simp only [Option.map_some', Option.some.injEq] at h
    subst h
    refine ⟨by omega, ?_⟩
    have hp := firstOcc_some hf
    rw [List.drop_drop] at hp
    rw [Nat.add_comm start j] at hp
    exact hp

theorem idxOf_bound {t pat : List Char} {start i : Nat} (h : idxOf t pat start = some i)
    (hne : pat ≠ []) : i + pat.length ≤ t.length := by
  unfold idxOf at h
  rcases hf : firstOcc (t.drop start) pat with _ | j
  · rw [hf] at h; simp at h
  · rw [hf] at h
    simp only [Option.map_some', Option.some.injEq] at h
    subst h
    have hb := firstOcc_bound hf hne
    rw [List.length_drop] at hb
    have : 1 ≤ pat.length := List.length_pos_of_ne_nil hne
    omega

theorem findBaseBlock_inv {text : List Char} {info : BaseBlockInfo}
    (h : findBaseBlock text = some info) :
    ∃ fenceIdx fenceEnd beginIdx endIdx,
      idxOf text FENCE_START 0 = some fenceIdx ∧
      idxOf text NL_FENCE (fenceIdx + FENCE_START.length) = some fenceEnd ∧
      idxOf text BEGIN_MARK fenceIdx = some beginIdx ∧
      idxOf text END_MARK fenceIdx = some endIdx ∧
      beginIdx ≤ endIdx ∧
      info = ⟨fenceIdx, fenceEnd + 4, beginIdx, endIdx + END_MARK.length⟩ := by
  unfold findBaseBlock at h
  rcases h1 : idxOf text FENCE_START 0 with _ | fenceIdx
  · rw [h1] at h; simp at h
  rw [h1] at h
  try simp only [] at h
  rcases h2 : idxOf text NL_FENCE (fenceIdx + FENCE_START.length) with _ | fenceEnd
  · rw [h2] at h; simp at h
  rw [h2] at h
  try simp only [] at h
  rcases h3 : idxOf text BEGIN_MARK fenceIdx with _ | beginIdx
  · rw [h3] at h; simp at h
  rw [h3] at h
  try simp only [] at h
  rcases h4 : idxOf text END_MARK fenceIdx with _ | endIdx
  · rw [h4] at h; simp at h
  rw [h4] at h
  try simp only [] at h
  by_cases h5 : endIdx < beginIdx
  · rw [if_pos h5] at h; simp at h
  · rw [if_neg h5] at h
    simp only [Option.some.injEq] at h
    exact ⟨fenceIdx, fenceEnd, beginIdx, endIdx, rfl, h2, h3, h4, by omega, h.symm⟩

/-! ### Claim theorems (with their supporting lemmas interleaved) -/

/-- Claim C1: the region-replace splice of `replaceFiltersInBaseBlock` leaves
the text before `filtersStart` and from `filtersEnd` onward character-for-
character unchanged; only the span `[filtersStart, filtersEnd)` is replaced by
the begin marker, the new body, and the end marker. -/
theorem claim_C1 (t : List Char) (r : BaseBlockInfo) (b : List Char)
    (h : findBaseBlock t = some r) :
    (replaceFiltersInBaseBlock t r b).take r.filtersStart = t.take r.filtersStart ∧
    (replaceFiltersInBaseBlock t r b).drop
        (r.filtersStart + (filtersReplacement b).length) =
      t.drop r.filtersEnd := by
  have hrepl : replaceFiltersInBaseBlock t r b =
      spliceFilters t r.filtersStart r.filtersEnd b := by
    unfold replaceFiltersInBaseBlock
    rw [h]
    rfl
  obtain ⟨fi, fe, bi, ei, h1, h2, h3, h4, h5, heq⟩ := findBaseBlock_inv h
  subst heq
  have hfs : bi ≤ t.length := by
    have := idxOf_bound h3 (by decide)
    omega
  have hlen : (t.take bi).length = bi := by
    rw [List.length_take]
    omega
  rw [hrepl]
  unfold spliceFilters
  constructor
  · have hta := List.take_left (t.take bi) (filtersReplacement b ++ t.drop (ei + END_MARK.length))
    rw [hlen] at hta
    rw [List.append_assoc]
    exact hta
  · have hlen2 : (t.take bi ++ filtersReplacement b).length =
        bi + (filtersReplacement b).length := by
      rw [List.length_append, hlen]
    have hdr := List.drop_left (t.take bi ++ filtersReplacement b)
      (t.drop (ei + END_MARK.length))
    rw [hlen2] at hdr
    exact hdr

/-- Witness for C1 on a concrete template document. -/
theorem claim_C1_witness :
    findBaseBlock (mkDoc "filters:".data) = some ⟨0, 96, 8, 92⟩ ∧
    ((replaceFiltersInBaseBlock (mkDoc "filters:".data) ⟨0, 96, 8, 92⟩ "x".data).take 8 =
        (mkDoc "filters:".data).take 8 ∧
      (replaceFiltersInBaseBlock (mkDoc "filters:".data) ⟨0, 96, 8, 92⟩ "x".data).drop
          (8 + (filtersReplacement "x".data).length) =
        (mkDoc "filters:".data).drop 92) :=
  ⟨by decide, claim_C1 (mkDoc "filters:".data) ⟨0, 96, 8, 92⟩ "x".data (by decide)⟩

/-- Claim C2 (amended): a region returned by `findBaseBlock` satisfies
`start ≤ filtersStart ≤ filtersEnd`, and `findBaseBlock` returns absent
whenever the end marker found from the fence start occurs before the begin
marker; but not necessarily `filtersEnd ≤ endPos`: the markers are only
searched from the fence start, not bounded by the fence close. -/
theorem claim_C2 (text : List Char) :
    (∀ info, findBaseBlock text = some info →
      info.start ≤ info.filtersStart ∧ info.filtersStart ≤ info.filtersEnd) ∧
    (∀ fenceIdx beginIdx endIdx,
      idxOf text FENCE_START 0 = some fenceIdx →
      idxOf text BEGIN_MARK fenceIdx = some beginIdx →
      idxOf text END_MARK fenceIdx = some endIdx →
      endIdx < beginIdx →
      findBaseBlock text = none) := by
  constructor
  · intro info h
    obtain ⟨fi, fe, bi, ei, h1, h2, h3, h4, h5, heq⟩ := findBaseBlock_inv h
    subst heq
    refine ⟨(idxOf_facts h3).1, ?_⟩
    show bi ≤ ei + END_MARK.length
    omega
  · intro fi bi ei h1 h2 h3 hlt
    unfold findBaseBlock
    rw [h1]
    simp only []
    cases h4 : idxOf text NL_FENCE (fi + FENCE_START.length) with
    | none => rfl
    | some fe =>
      simp only []
      rw [h2, h3]
      simp only []
      rw [if_pos hlt]

/-- Witness for the amended C2: the region of `cexDoc` satisfies the
inequality chain, and on `cexDocRev`, whose end marker precedes its begin
marker, `findBaseBlock` returns absent. -/
theorem claim_C2_witness :
    ((⟨0, 13, 14, 89⟩ : BaseBlockInfo).start
        ≤ (⟨0, 13, 14, 89⟩ : BaseBlockInfo).filtersStart ∧
      (⟨0, 13, 14, 89⟩ : BaseBlockInfo).filtersStart
        ≤ (⟨0, 13, 14, 89⟩ : BaseBlockInfo).filtersEnd) ∧
    findBaseBlock cexDocRev = none :=
  ⟨(claim_C2 cexDoc).1 ⟨0, 13, 14, 89⟩ (by decide),
   (claim_C2 cexDocRev).2 0 22 8 (by decide) (by decide) (by decide) (by decide)⟩

/-- Counterexample to C2 as stated: on `cexDoc`, whose begin/end markers sit
after the fence close, `findBaseBlock` still returns a region, and that
region violates `filtersEnd ≤ endPos`. -/
theorem claim_C2_counterexample :
    findBaseBlock cexDoc = some ⟨0, 13, 14, 89⟩ ∧
    ¬ ((⟨0, 13, 14, 89⟩ : BaseBlockInfo).filtersEnd ≤
        (⟨0, 13, 14, 89⟩ : BaseBlockInfo).endPos) :=
  ⟨by decide, by decide⟩

/-- Claim C4: both merge steps concatenate the prefix, suffix and substring
tiers in order, skipping tags already emitted (and, in the suggestion
variant, stopping at the cap of 12); on the tiers `[a,b]`, `[b,c]`,
`[c,d,a]` the result is exactly `[a,b,c,d]`. -/
theorem claim_C4 :
    merge12 ["a".data, "b".data] ["b".data, "c".data] ["c".data, "d".data, "a".data] =
      ["a".data, "b".data, "c".data, "d".data] ∧
    mergeNoCap ["a".data, "b".data] ["b".data, "c".data] ["c".data, "d".data, "a".data] =
      ["a".data, "b".data, "c".data, "d".data] ∧
    (∀ t1 t2 t3 : List Tag,
      merge12 t1 t2 t3 = (mergeTier 12 [] [] (t1 ++ t2 ++ t3)).2 ∧
      mergeNoCap t1 t2 t3 = (dedupAppend [] [] (t1 ++ t2 ++ t3)).2) :=
  ⟨by decide, by decide,
   fun t1 t2 t3 => ⟨merge12_concat t1 t2 t3, mergeNoCap_concat t1 t2 t3⟩⟩

/-- Claim C7: `replaceFiltersInBaseBlock` re-locates the managed region in the
freshly given text before splicing; when re-location succeeds the splice uses
the fresh offsets, and when it fails the caller's stale offsets are used and
the splice is still performed rather than aborted. -/
theorem claim_C7 (text : List Char) (info : BaseBlockInfo) (nf : List Char) :
    (∀ latest, findBaseBlock text = some latest →
      replaceFiltersInBaseBlock text info nf =
        spliceFilters text latest.filtersStart latest.filtersEnd nf) ∧
    (findBaseBlock text = none →
      replaceFiltersInBaseBlock text info nf =
        spliceFilters text info.filtersStart info.filtersEnd nf) := by
  constructor
  · intro latest h
    unfold replaceFiltersInBaseBlock
    rw [h]
    rfl
  · intro h
    unfold replaceFiltersInBaseBlock
    rw [h]
    rfl

/-- Witness for C7: on a document without markers the stale offsets are used
and the splice still happens. -/
theorem claim_C7_witness :
    findBaseBlock "abc".data = none ∧
    replaceFiltersInBaseBlock "abc".data ⟨0, 0, 0, 0⟩ "f".data =
      spliceFilters "abc".data 0 0 "f".data :=
  ⟨by decide, (claim_C7 "abc".data ⟨0, 0, 0, 0⟩ "f".data).2 (by decide)⟩

/-- Claim C5: `prefixMatch` returns a subsequence of its input (hence a subset
in the same order, preserving any sortedness), of length at most `limit`,
whose every element's lowercase form starts with the lowercased query with a
leading `#` stripped; the empty query (or `"#"`) yields the empty result. -/
theorem claim_C5 (all : List Tag) (q : List Char) (limit : Nat) :
    (prefixMatch all q limit).Sublist all ∧
    (∀ R : Tag → Tag → Prop, all.Pairwise R → (prefixMatch all q limit).Pairwise R) ∧
    (prefixMatch all q limit).length ≤ limit ∧
    (∀ t ∈ prefixMatch all q limit, toLowerCase (stripHash q) <+: toLowerCase t) ∧
    ((q = [] ∨ q = ['#']) → prefixMatch all q limit = []) := by
  refine ⟨prefixMatch_sublist, ?_, ?_, ?_, ?_⟩
  · intro R hR
    exact List.Pairwise.sublist prefixMatch_sublist hR
  · simp only [prefixMatch]
    split_ifs
    · simp
    · exact List.length_take_le _ _
  · simp only [prefixMatch]
    split_ifs
    · intro t ht; simp at ht
    · intro t ht
      have h2 := List.mem_of_mem_take ht
      have h3 := List.of_mem_filter h2
      exact List.isPrefixOf_iff_prefix.1 h3
  · intro hq
    rcases hq with rfl | rfl <;> rfl

/-- Witness for C5. -/
theorem claim_C5_witness :
    (["ab".data, "cd".data] : List Tag).Pairwise (fun _ _ => True) ∧
    prefixMatch ["ab".data, "cd".data] ['#'] 60 = [] :=
  ⟨by simp, (claim_C5 ["ab".data, "cd".data] ['#'] 60).2.2.2.2 (Or.inr rfl)⟩

/-- Claim C6: `TagSuggest.getSuggestions` returns at most 12 suggestions, and
returns none at all when the current space-delimited token at the caret is
empty. -/
theorem claim_C6 (allTags : List Tag) (value : List Char) (caret : Nat)
    (modes : MatchSettings) :
    (getSuggestions allTags value caret modes).length ≤ 12 ∧
    (currentToken value caret = [] → getSuggestions allTags value caret modes = []) := by
  constructor
  · simp only [getSuggestions]
    split_ifs
    all_goals simp only [List.length_map, List.length_nil]
    all_goals first
    | omega
    | exact merge12_length _ _ _
  · intro h
    simp [getSuggestions, h]

/-- Witness for C6. -/
theorem claim_C6_witness :
    currentToken "ab ".data 3 = [] ∧
    getSuggestions ["ab".data] "ab ".data 3 ⟨true, true, true, 0⟩ = [] :=
  ⟨by decide,
   (claim_C6 ["ab".data] "ab ".data 3 ⟨true, true, true, 0⟩).2 (by decide)⟩

theorem debounceRun_chain {α : Type} (ms : Nat) :
    ∀ (es : List (Nat × α)) (last : Nat × α),
      List.Chain' (fun a b => b.1 < a.1 + ms) (last :: es) →
      debounceRun ms es (some (last.1 + ms, last.2)) =
        [((es.getLastD last).1 + ms, (es.getLastD last).2)] := by
  intro es
  induction es with
  | nil => intro last hch; rfl
  | cons e rest ih =>
    intro last hch
    obtain ⟨t, v⟩ := e
    have h1 : t < last.1 + ms := (List.chain'_cons.1 hch).1
    have h2 : List.Chain' (fun a b => b.1 < a.1 + ms) ((t, v) :: rest) :=
      (List.chain'_cons.1 hch).2
    simp only [debounceRun]
    rw [if_neg (by omega : ¬ last.1 + ms ≤ t)]
    rw [ih (t, v) h2]
    rw [List.getLastD_cons]

/-- Claim C8: a run of `debounceDynamic` on a sequence of `N ≥ 1` calls, each
arriving strictly less than `ms` after the previous one, fires exactly once,
at `ms` after the last call, with the argument captured at the last call;
and each new call while a timeout is pending simply discards that timeout and
schedules a fresh one. -/
theorem claim_C8 {α : Type} (ms : Nat) (e : Nat × α) (es : List (Nat × α))
    (hchain : List.Chain' (fun a b => b.1 < a.1 + ms) (e :: es)) :
    runDebounce ms (e :: es) = [((es.getLastD e).1 + ms, (es.getLastD e).2)] ∧
    (∀ (s w : Nat × α) (rest : List (Nat × α)), ¬ s.1 ≤ w.1 →
      debounceRun ms (w :: rest) (some s) =
        debounceRun ms rest (some (w.1 + ms, w.2))) := by
  constructor
  · obtain ⟨t, v⟩ := e
    show debounceRun ms ((t, v) :: es) none = _
    simp only [debounceRun]
    exact debounceRun_chain ms es (t, v) hchain
  · intro s w rest hw
    obtain ⟨t, v⟩ := w
    simp only [debounceRun]
    rw [if_neg hw]

/-- Witness for C8: three rapid calls collapse to one fire carrying the last
value. -/
theorem claim_C8_witness :
    List.Chain' (fun a b : Nat × Nat => b.1 < a.1 + 1000) [(0, 1), (500, 2), (900, 3)] ∧
    runDebounce 1000 [(0, 1), (500, 2), (900, 3)] = [(1900, 3)] :=
  ⟨by norm_num [List.chain'_cons, List.chain'_singleton],
   (claim_C8 1000 (0, 1) [(500, 2), (900, 3)]
     (by norm_num [List.chain'_cons, List.chain'_singleton])).1⟩

/-! ### Locating the managed region of a template document -/

theorem firstOcc_cons_of_not_pre {c : Char} {t pat : List Char}
    (h : ¬ pat <+: (c :: t)) :
    firstOcc (c :: t) pat = (firstOcc t pat).map (fun i => i + 1) := by
  have hb : pat.isPrefixOf (c :: t) = false := by
    cases hb2 : pat.isPrefixOf (c :: t)
    · rfl
    · exact absurd (List.isPrefixOf_iff_prefix.1 hb2) h
  simp only [firstOcc]
  simp [hb]

theorem not_bt_prefix {X : List Char} (hx : X.head? ≠ some (Char.ofNat 96)) :
    ¬ "```".data <+: X := by
  cases X with
  | nil =>
    intro h
    have := h.length_le
    simp at this
  | cons c r =>
    intro h
    rw [show ("```".data : List Char) = Char.ofNat 96 :: "``".data from by decide] at h
    rw [List.cons_prefix_cons] at h
    exact hx (by simp [← h.1])

theorem joinNL_snoc {ls : List (List Char)} {l : List Char} (h : ls ≠ []) :
    joinNL (ls ++ [l]) = joinNL ls ++ '\n' :: l := by
  induction ls with
  | nil => exact absurd rfl h
  | cons x ls2 ih =>
    cases ls2 with
    | nil => rfl
    | cons y ls3 =>
      rw [List.cons_append, joinNL_cons (by simp), joinNL_cons (by simp), ih (by simp)]
      simp [List.append_assoc]

theorem mem_joinNL {c : Char} {lines : List (List Char)} (h : c ∈ joinNL lines) :
    c = '\n' ∨ ∃ l ∈ lines, c ∈ l := by
  induction lines with
  | nil => simp [joinNL] at h
  | cons l ls ih =>
    cases ls with
    | nil => exact Or.inr ⟨l, by simp, h⟩
    | cons l2 ls2 =>
      rw [joinNL_cons (by simp)] at h
      rcases List.mem_append.1 h with h2 | h2
      · exact Or.inr ⟨l, by simp, h2⟩
      · rcases List.mem_cons.1 h2 with rfl | h3
        · exact Or.inl rfl
        · rcases ih h3 with h4 | ⟨l3, hl3, hcl3⟩
          · exact Or.inl h4
          · exact Or.inr ⟨l3, by simp [hl3], hcl3⟩

theorem mem_joinComma {c : Char} {ls : List (List Char)} (h : c ∈ joinComma ls) :
    c ∈ (", ".data : List Char) ∨ ∃ l ∈ ls, c ∈ l := by
  induction ls with
  | nil => simp [joinComma] at h
  | cons l ls ih =>
    cases ls with
    | nil => exact Or.inr ⟨l, by simp, h⟩
    | cons l2 ls2 =>
      rw [show joinComma (l :: l2 :: ls2) = l ++ ", ".data ++ joinComma (l2 :: ls2)
        from rfl] at h
      rcases List.mem_append.1 h with h2 | h2
      · rcases List.mem_append.1 h2 with h3 | h3
        · exact Or.inr ⟨l, by simp, h3⟩
        · exact Or.inl h3
      · rcases ih h2 with h4 | ⟨l3, hl3, hcl3⟩
        · exact Or.inl h4
        · exact Or.inr ⟨l3, by simp [hl3], hcl3⟩

theorem escapeQuote_mem {c : Char} {s : List Char} (h : c ∈ escapeQuote s) :
    c ∈ s ∨ c = '\\' ∨ c = '"' := by
  unfold escapeQuote at h
  rw [List.mem_flatten] at h
  obtain ⟨l, hl, hcl⟩ := h
  rw [List.mem_map] at hl
  obtain ⟨x, hx, rfl⟩ := hl
  by_cases hq : x = '"'
  · rw [if_pos hq] at hcl
    simp at hcl
    rcases hcl with rfl | rfl
    · exact Or.inr (Or.inl rfl)
    · exact Or.inr (Or.inr rfl)
  · rw [if_neg hq] at hcl
    simp at hcl
    subst hcl
    exact Or.inl hx

theorem quoteItem_mem {c : Char} {s : List Char} (h : c ∈ quoteItem s) :
    c = '"' ∨ c ∈ s ∨ c = '\\' := by
  unfold quoteItem at h
  rcases List.mem_cons.1 h with rfl | h2
  · exact Or.inl rfl
  · rcases List.mem_append.1 h2 with h3 | h3
    · rcases escapeQuote_mem h3 with h4 | h4 | h4
      · exact Or.inr (Or.inl h4)
      · exact Or.inr (Or.inr h4)
      · exact Or.inl h4
    · simp at h3
      exact Or.inl h3

theorem jsTrim_subset {s : List Char} : ∀ c ∈ jsTrim s, c ∈ s := by
  intro c hc
  unfold jsTrim at hc
  rw [List.mem_reverse] at hc
  have h1 := (List.dropWhile_sublist (l := (s.dropWhile isJsWs).reverse)
    (p := isJsWs)).subset hc
  rw [List.mem_reverse] at h1
  exact (List.dropWhile_sublist (l := s) (p := isJsWs)).subset h1

theorem encodeState_wsfree {s : List Char} : ∀ c ∈ encodeState s, isJsWs c = false :=
  fun c hc => (encodeState_props c hc).1

theorem fenceSearch : ∀ (lines : List (List Char)) (tail : List Char),
    lines ≠ [] →
    (∀ l ∈ lines, '\n' ∉ l ∧ l.head? ≠ some (Char.ofNat 96)) →
    "```".data <+: tail →
    firstOcc (joinNL lines ++ '\n' :: tail) NL_FENCE = some (joinNL lines).length := by
  intro lines
  induction lines with
  | nil => intro tail h1 h2 h3; exact absurd rfl h1
  | cons l ls ih =>
    intro tail h1 h2 h3
    cases ls with
    | nil =>
      show firstOcc (joinNL [l] ++ '\n' :: tail) NL_FENCE = some (joinNL [l]).length
      rw [show joinNL [l] = l from rfl]
      rw [show (NL_FENCE : List Char) = '\n' :: "```".data from rfl]
      exact firstOcc_nl_boundary (h2 l (by simp)).1 h3
    | cons l2 ls2 =>
      have hK : joinNL (l :: l2 :: ls2) = l ++ '\n' :: joinNL (l2 :: ls2) :=
        joinNL_cons (by simp)
      have hBhead : (joinNL (l2 :: ls2) ++ '\n' :: tail).head? ≠ some (Char.ofNat 96) := by
        cases hl2 : l2 with
        | nil =>
          cases ls2 with
          | nil => simp [joinNL]
          | cons x xs =>
            rw [joinNL_cons (by simp)]
            simp
        | cons c r =>
          have hh := (h2 l2 (by simp)).2
          rw [hl2] at hh
          cases ls2 with
          | nil =>
            simpa [joinNL] using hh
          | cons x xs =>
            rw [joinNL_cons (by simp)]
            simpa using hh
      have hB : ¬ "```".data <+: (joinNL (l2 :: ls2) ++ '\n' :: tail) := not_bt_prefix hBhead
      have hA := @firstOcc_append NL_FENCE (l ++ ['\n'])
        (joinNL (l2 :: ls2) ++ '\n' :: tail)
        (by
          intro m hm hp
          rw [show (NL_FENCE : List Char) = '\n' :: "```".data from rfl] at hp
          exact notStart_nlpat (h2 l (by simp)).1 hB m hm hp)
      rw [hK, show (l ++ '\n' :: joinNL (l2 :: ls2)) ++ '\n' :: tail =
        (l ++ ['\n']) ++ (joinNL (l2 :: ls2) ++ '\n' :: tail) from by
          simp [List.append_assoc]]
      rw [hA, ih tail (by simp) (fun x hx => h2 x (by simp [hx])) h3]
      simp [List.length_append]
      omega

theorem endSearch : ∀ (lines : List (List Char)) (B : List Char),
    (∀ l ∈ lines, '\n' ∉ l ∧ ¬ END_MARK <:+: l) →
    END_MARK <+: B →
    firstOcc (joinNL lines ++ '\n' :: B) END_MARK = some ((joinNL lines).length + 1) := by
  intro lines
  induction lines with
  | nil =>
    intro B h hB
    show firstOcc ('\n' :: B) END_MARK = some 1
    rw [firstOcc_cons_of_not_pre (by
      intro hp
      rw [show (END_MARK : List Char) = '#' :: "# END FILTERS".data.tail from by decide,
        List.cons_prefix_cons] at hp
      exact absurd hp.1 (by decide))]
    rw [firstOcc_of_pre hB]
    rfl
  | cons l ls ih =>
    intro B h hB
    have hline := h l (by simp)
    cases ls with
    | nil =>
      show firstOcc (joinNL [l] ++ '\n' :: B) END_MARK = some ((joinNL [l]).length + 1)
      rw [show joinNL [l] = l from rfl]
      rw [show l ++ '\n' :: B = (l ++ ['\n']) ++ B from by simp [List.append_assoc]]
      rw [firstOcc_append
        (fun m hm => notStart_line B (by decide) (by decide) hline.2 hline.1 m hm)]
      rw [firstOcc_of_pre hB]
      simp [List.length_append]
    | cons l2 ls2 =>
      have hK : joinNL (l :: l2 :: ls2) = l ++ '\n' :: joinNL (l2 :: ls2) :=
        joinNL_cons (by simp)
      rw [hK, show (l ++ '\n' :: joinNL (l2 :: ls2)) ++ '\n' :: B =
        (l ++ ['\n']) ++ (joinNL (l2 :: ls2) ++ '\n' :: B) from by
          simp [List.append_assoc]]
      rw [firstOcc_append
        (fun m hm => notStart_line _ (by decide) (by decide) hline.2 hline.1 m hm)]
      rw [ih B (fun x hx => h x (by simp [hx])) hB]
      simp [List.length_append]
      omega

theorem mkDoc_decomp (bls : List (List Char)) (hne : bls ≠ []) :
    mkDoc (joinNL bls) =
      ("```base".data ++ ['\n']) ++
        (joinNL (BEGIN_MARK :: bls ++ [END_MARK]) ++ '\n' :: "```\n".data) := by
  have hJdef : joinNL (BEGIN_MARK :: bls ++ [END_MARK]) =
      BEGIN_MARK ++ '\n' :: (joinNL bls ++ '\n' :: END_MARK) := by
    rw [@joinNL_snoc (BEGIN_MARK :: bls) END_MARK (by simp),
      joinNL_cons hne, List.append_assoc, List.cons_append]
  rw [hJdef]
  unfold mkDoc
  rw [show ("```base\n".data : List Char) = "```base".data ++ ['\n'] from by decide,
    show ("\n```\n".data : List Char) = '\n' :: "```\n".data from by decide]
  simp [List.append_assoc]

theorem findBaseBlock_mkDoc (bls : List (List Char)) (hne : bls ≠ [])
    (hgood : ∀ l ∈ bls,
      '\n' ∉ l ∧ l.head? ≠ some (Char.ofNat 96) ∧ ¬ END_MARK <:+: l) :
    findBaseBlock (mkDoc (joinNL bls)) =
      some ⟨0, (joinNL (BEGIN_MARK :: bls ++ [END_MARK])).length + 12, 8,
            (joinNL (BEGIN_MARK :: bls ++ [END_MARK])).length + 8⟩ := by
  have hdoc := mkDoc_decomp bls hne
  have hJdef : joinNL (BEGIN_MARK :: bls ++ [END_MARK]) =
      BEGIN_MARK ++ '\n' :: (joinNL bls ++ '\n' :: END_MARK) := by
    rw [@joinNL_snoc (BEGIN_MARK :: bls) END_MARK (by simp),
      joinNL_cons hne, List.append_assoc, List.cons_append]
  have hJ2 : joinNL (BEGIN_MARK :: bls ++ [END_MARK]) =
      joinNL (BEGIN_MARK :: bls) ++ '\n' :: END_MARK := by
    rw [show (BEGIN_MARK :: bls ++ [END_MARK] : List (List Char)) =
      (BEGIN_MARK :: bls) ++ [END_MARK] from rfl, joinNL_snoc (by simp)]
  have hlenJ : (joinNL (BEGIN_MARK :: bls ++ [END_MARK])).length =
      (joinNL (BEGIN_MARK :: bls)).length + 14 := by
    rw [hJ2, List.length_append, List.length_cons,
      show (END_MARK : List Char).length = 13 from by decide]
  have h8 : ("```base".data ++ ['\n'] : List Char).length = 8 := by decide
  have hlines : ∀ l ∈ BEGIN_MARK :: bls ++ [END_MARK],
      '\n' ∉ l ∧ l.head? ≠ some (Char.ofNat 96) := by
    intro l hl
    rcases List.mem_cons.1 hl with rfl | hl2
    · exact ⟨by decide, by decide⟩
    · rcases List.mem_append.1 hl2 with hl3 | hl3
      · exact ⟨(hgood l hl3).1, (hgood l hl3).2.1⟩
      · rw [List.mem_singleton] at hl3
        subst hl3
        exact ⟨by decide, by decide⟩
  have h1 : idxOf (mkDoc (joinNL bls)) FENCE_START 0 = some 0 := by
    unfold idxOf
    rw [List.drop_zero, firstOcc_of_pre (by
      rw [hdoc, List.append_assoc]
      exact List.prefix_append _ _)]
    rfl
  have h2 : idxOf (mkDoc (joinNL bls)) NL_FENCE (0 + FENCE_START.length) =
      some ((joinNL (BEGIN_MARK :: bls ++ [END_MARK])).length + 8) := by
    unfold idxOf
    rw [show (0 + FENCE_START.length) = 7 from by decide]
    have hdrop : (mkDoc (joinNL bls)).drop 7 =
        '\n' :: (joinNL (BEGIN_MARK :: bls ++ [END_MARK]) ++ '\n' :: "```\n".data) := by
      rw [hdoc, List.append_assoc]
      have hd := List.drop_left "```base".data
        (['\n'] ++ (joinNL (BEGIN_MARK :: bls ++ [END_MARK]) ++ '\n' :: "```\n".data))
      rw [show ("```base".data : List Char).length = 7 from by decide] at hd
      rw [hd]
      rfl
    rw [hdrop]
    rw [firstOcc_cons_of_not_pre (by
      rw [show (NL_FENCE : List Char) = '\n' :: "```".data from rfl, List.cons_prefix_cons]
      rintro ⟨-, hpre⟩
      refine not_bt_prefix ?_ hpre
      rw [hJdef]
      rw [show ((BEGIN_MARK ++ '\n' :: (joinNL bls ++ '\n' :: END_MARK)) ++
          '\n' :: "```\n".data).head? = some '#' from rfl]
      decide)]
    rw [fenceSearch (BEGIN_MARK :: bls ++ [END_MARK]) "```\n".data (by simp) hlines
      (by decide)]
    simp only [Option.map_some', Option.some.injEq]
    try omega
  have h3 : idxOf (mkDoc (joinNL bls)) BEGIN_MARK 0 = some 8 := by
    unfold idxOf
    rw [List.drop_zero, hdoc]
    rw [firstOcc_append (notStart_line _ (by decide) (by decide) (by decide) (by decide))]
    rw [firstOcc_of_pre (by
      rw [hJdef, List.append_assoc]
      exact List.prefix_append _ _)]
    simp only [Option.map_some', Option.some.injEq]
    rw [h8]
  have h4 : idxOf (mkDoc (joinNL bls)) END_MARK 0 =
      some ((joinNL (BEGIN_MARK :: bls)).length + 9) := by
    unfold idxOf
    rw [List.drop_zero, hdoc, hJ2]
    rw [show (joinNL (BEGIN_MARK :: bls) ++ '\n' :: END_MARK) ++ '\n' :: "```\n".data =
      joinNL (BEGIN_MARK :: bls) ++ '\n' :: (END_MARK ++ '\n' :: "```\n".data) from by
        simp [List.append_assoc]]
    rw [firstOcc_append (notStart_line _ (by decide) (by decide) (by decide) (by decide))]
    rw [endSearch (BEGIN_MARK :: bls) (END_MARK ++ '\n' :: "```\n".data)
      (by
        intro l hl
        rcases List.mem_cons.1 hl with rfl | hl2
        · exact ⟨by decide, by decide⟩
        · exact ⟨(hgood l hl2).1, (hgood l hl2).2.2⟩)
      (List.prefix_append _ _)]
    simp only [Option.map_some', Option.some.injEq, h8]
    try omega
  unfold findBaseBlock
  rw [h1]
  try simp only []
  rw [h2]
  try simp only []
  rw [h3, h4]
  try simp only []
  rw [if_neg (by omega)]
  have hval1 : (joinNL (BEGIN_MARK :: bls ++ [END_MARK])).length + 8 + 4 =
      (joinNL (BEGIN_MARK :: bls ++ [END_MARK])).length + 12 := by omega
  have hval2 : (joinNL (BEGIN_MARK :: bls)).length + 9 + (END_MARK : List Char).length =
      (joinNL (BEGIN_MARK :: bls ++ [END_MARK])).length + 8 := by
    rw [show (END_MARK : List Char).length = 13 from by decide]
    omega
  rw [hval1, hval2]

theorem segment_mkDoc (bls : List (List Char)) (hne : bls ≠ []) :
    ((mkDoc (joinNL bls)).take
        ((joinNL (BEGIN_MARK :: bls ++ [END_MARK])).length + 8)).drop 8 =
      joinNL (BEGIN_MARK :: bls ++ [END_MARK]) := by
  rw [mkDoc_decomp bls hne]
  have h8 : ("```base".data ++ ['\n'] : List Char).length = 8 := by decide
  rw [show (joinNL (BEGIN_MARK :: bls ++ [END_MARK])).length + 8 =
      ("```base".data ++ ['\n'] : List Char).length +
        (joinNL (BEGIN_MARK :: bls ++ [END_MARK])).length from by rw [h8]; omega]
  rw [List.take_append, List.take_left]
  rw [show (8 : Nat) = ("```base".data ++ ['\n'] : List Char).length from h8.symm,
    List.drop_left]

/-! ### Line-level lemmas for the saved-state matchers -/

theorem digit_facts2 {c : Char} (h : isDigitCh c = true) :
    isJsWs c = false ∧ c ≠ '\n' ∧ c ≠ '#' ∧ c ≠ Char.ofNat 96 := by
  have hb : 48 ≤ c.toNat ∧ c.toNat ≤ 57 := by simpa [isDigitCh] using h
  refine ⟨?_, ?_, ?_, ?_⟩
  · cases hw : isJsWs c
    · rfl
    · have hmem : c.toNat ∈ wsCodes := by simpa [isJsWs] using hw
      exact absurd hb (ws_codes_not_digit _ hmem)
  · exact ne_of_toNat_ne (by rw [show ('\n').toNat = 10 from by decide]; omega)
  · exact ne_of_toNat_ne (by rw [show ('#').toNat = 35 from by decide]; omega)
  · exact ne_of_toNat_ne (by rw [show (Char.ofNat 96).toNat = 96 from by decide]; omega)

theorem matchInputLine_cons (c : Char) (rest : List Char) :
    matchInputLine (c :: rest) =
      if c = '#' then
        if "INPUT:".data.isPrefixOf (rest.dropWhile isJsWs) then
          regexGroupDotPlus ((rest.dropWhile isJsWs).drop 6)
        else none
      else none := rfl

theorem matchCaretLine_cons (c : Char) (rest : List Char) :
    matchCaretLine (c :: rest) =
      if c = '#' then
        if "CARET:".data.isPrefixOf (rest.dropWhile isJsWs) then
          if (((rest.dropWhile isJsWs).drop 6).dropWhile isJsWs).isEmpty then none
          else if (((rest.dropWhile isJsWs).drop 6).dropWhile isJsWs).all isDigitCh then
            some (((rest.dropWhile isJsWs).drop 6).dropWhile isJsWs)
          else none
        else none
      else none := rfl

theorem matchInputLine_head_ne {l : List Char} (h : l.head? ≠ some '#') :
    matchInputLine l = none := by
  cases l with
  | nil => rfl
  | cons c rest =>
    rw [matchInputLine_cons, if_neg (fun hc => h (by rw [List.head?_cons, hc]))]

theorem matchCaretLine_head_ne {l : List Char} (h : l.head? ≠ some '#') :
    matchCaretLine l = none := by
  cases l with
  | nil => rfl
  | cons c rest =>
    rw [matchCaretLine_cons, if_neg (fun hc => h (by rw [List.head?_cons, hc]))]

theorem isPrefixOf_self_append (p x : List Char) : p.isPrefixOf (p ++ x) = true := by
  induction p with
  | nil => simp [List.isPrefixOf]
  | cons c r ih => simpa [List.isPrefixOf] using ih

theorem isPrefixOf_cons_false {c d : Char} (h : c ≠ d) (p l : List Char) :
    (c :: p).isPrefixOf (d :: l) = false := by
  simp [List.isPrefixOf, h]

theorem dropWhile_ws_space {c : Char} (hc : isJsWs c = false) (r : List Char) :
    (' ' :: c :: r).dropWhile isJsWs = c :: r := by
  rw [List.dropWhile_cons, if_pos (by decide), List.dropWhile_cons, hc]
  simp

theorem utf8Bytes_ne_nil (n : Nat) : utf8Bytes n ≠ [] := by
  unfold utf8Bytes
  split_ifs <;> simp

theorem encodeChar_ne_nil (c : Char) : encodeChar c ≠ [] := by
  unfold encodeChar
  split_ifs
  · simp
  · cases hb : utf8Bytes c.toNat with
    | nil => exact absurd hb (utf8Bytes_ne_nil _)
    | cons b bs =>
      simp [percentByte]

theorem encodeState_eq_nil {s : List Char} (h : encodeState s = []) : s = [] := by
  cases s with
  | nil => rfl
  | cons c r =>
    exfalso
    have hsplit : encodeState (c :: r) = encodeChar c ++ encodeState r := by
      simp [encodeState]
    rw [hsplit] at h
    exact encodeChar_ne_nil c (List.append_eq_nil.1 h).1

theorem matchInputLine_inputLine_eq {s : List Char} {c0 : Char} {enc2 : List Char}
    (he : encodeState s = c0 :: enc2) :
    matchInputLine (inputLine s) = some (c0 :: enc2) := by
  have hc0 : isJsWs c0 = false :=
    encodeState_wsfree c0 (by rw [he]; exact List.mem_cons_self _ _)
  rw [show inputLine s = '#' :: (' ' :: 'I' :: ("NPUT: ".data ++ encodeState s)) from rfl,
    matchInputLine_cons, if_pos rfl, dropWhile_ws_space (by decide),
    show ('I' :: ("NPUT: ".data ++ encodeState s) : List Char)
      = "INPUT:".data ++ (' ' :: encodeState s) from rfl,
    if_pos (isPrefixOf_self_append _ _),
    show (("INPUT:".data ++ (' ' :: encodeState s) : List Char)).drop 6
      = ' ' :: encodeState s from rfl]
  rw [he]
  unfold regexGroupDotPlus
  rw [List.getLast?_cons_cons]
  cases hz : (c0 :: enc2).getLast? with
  | none => exact absurd hz (by simp)
  | some z =>
    simp only []
    rw [dropWhile_ws_space hc0]
    simp

theorem decodeState_nil : decodeState [] = [] := by
  unfold decodeState
  rw [show uriTokens [] = some [] from rfl]
  simp only []
  rw [decodeToks]
  rfl

theorem matchInputLine_inputLine (s : List Char) :
    ∃ g, matchInputLine (inputLine s) = some g ∧ decodeState (jsTrim g) = s := by
  by_cases henc : encodeState s = []
  · have hs : s = [] := encodeState_eq_nil henc
    subst hs
    refine ⟨[' '], by decide, ?_⟩
    rw [show jsTrim [' '] = [] from by decide, decodeState_nil]
  · obtain ⟨c0, enc2, he⟩ := List.exists_cons_of_ne_nil henc
    refine ⟨c0 :: enc2, matchInputLine_inputLine_eq he, ?_⟩
    rw [← he, jsTrim_eq_self encodeState_wsfree, decode_encode]

theorem matchCaretLine_inputLine (s : List Char) :
    matchCaretLine (inputLine s) = none := by
  rw [show inputLine s = '#' :: (' ' :: 'I' :: ("NPUT: ".data ++ encodeState s)) from rfl,
    matchCaretLine_cons, if_pos rfl, dropWhile_ws_space (by decide)]
  rw [if_neg (by
    rw [show ("CARET:".data : List Char) = 'C' :: "ARET:".data from rfl,
      isPrefixOf_cons_false (by decide)]
    simp)]

theorem matchCaretLine_caretLine (c : Nat) :
    matchCaretLine (caretLine c) = some (natToDec c) := by
  have hd : ∀ ch ∈ natToDec c, isJsWs ch = false :=
    fun ch hch => (digit_facts2 (natToDec_digits ch hch)).1
  obtain ⟨d0, ds2, hds⟩ := List.exists_cons_of_ne_nil (natToDec_ne_nil (n := c))
  rw [show caretLine c = '#' :: (' ' :: 'C' :: ("ARET: ".data ++ natToDec c)) from rfl,
    matchCaretLine_cons, if_pos rfl, dropWhile_ws_space (by decide),
    show ('C' :: ("ARET: ".data ++ natToDec c) : List Char)
      = "CARET:".data ++ (' ' :: natToDec c) from rfl,
    if_pos (isPrefixOf_self_append _ _),
    show (("CARET:".data ++ (' ' :: natToDec c) : List Char)).drop 6
      = ' ' :: natToDec c from rfl]
  rw [hds, dropWhile_ws_space (hd d0 (by rw [hds]; exact List.mem_cons_self _ _))]
  rw [if_neg (by simp)]
  rw [if_pos (by
    rw [← hds]
    exact List.all_eq_true.2 (fun x hx => natToDec_digits x hx))]

theorem firstLineMatch_cons_none {f : List Char → Option (List Char)} {l : List Char}
    {ls : List (List Char)} (h : f l = none) :
    firstLineMatch f (l :: ls) = firstLineMatch f ls := by
  simp [firstLineMatch, h]

theorem firstLineMatch_cons_some {f : List Char → Option (List Char)} {l : List Char}
    {ls : List (List Char)} {g : List Char} (h : f l = some g) :
    firstLineMatch f (l :: ls) = some g := by
  simp [firstLineMatch, h]

theorem firstLineMatch_append_none {f : List Char → Option (List Char)}
    {L1 L2 : List (List Char)} (h : ∀ l ∈ L1, f l = none) :
    firstLineMatch f (L1 ++ L2) = firstLineMatch f L2 := by
  induction L1 with
  | nil => rfl
  | cons l ls ih =>
    rw [List.cons_append, firstLineMatch_cons_none (h l (by simp))]
    exact ih (fun x hx => h x (by simp [hx]))

theorem matchers_fixed_none :
    (matchInputLine BEGIN_MARK = none ∧ matchCaretLine BEGIN_MARK = none) ∧
    (matchInputLine "filters:".data = none ∧ matchCaretLine "filters:".data = none) ∧
    (matchInputLine "  and:".data = none ∧ matchCaretLine "  and:".data = none) ∧
    (matchInputLine END_MARK = none ∧ matchCaretLine END_MARK = none) := by decide

/-! ### Each generated line is newline-free, fence-safe and end-marker-free -/

theorem not_infix_unique_head {pat : List Char} {c : Char} {t : List Char}
    (hpat : pat.head? = some c) (htail : c ∉ t) (hnp : ¬ pat <+: (c :: t)) :
    ¬ pat <:+: (c :: t) := by
  rintro ⟨u, v, huv⟩
  obtain ⟨p2, rfl⟩ : ∃ p2, pat = c :: p2 := by
    cases pat with
    | nil => simp at hpat
    | cons x xs => exact ⟨xs, by rw [show x = c from by simpa using hpat]⟩
  cases u with
  | nil => exact hnp ⟨v, by simpa using huv⟩
  | cons a u2 =>
    apply htail
    rw [List.cons_append, List.cons_append] at huv
    injection huv with h3 h4
    rw [← h4]
    exact List.mem_append.2 (Or.inl (List.mem_append.2 (Or.inr (List.mem_cons_self _ _))))

theorem inputLine_no_nl (s : List Char) : '\n' ∉ inputLine s := by
  intro h
  unfold inputLine at h
  rcases List.mem_append.1 h with h2 | h2
  · exact absurd h2 (by decide)
  · exact (encodeState_props _ h2).2.1 (by decide)

theorem inputLine_good (s : List Char) :
    '\n' ∉ inputLine s ∧ (inputLine s).head? ≠ some (Char.ofNat 96) ∧
      ¬ END_MARK <:+: inputLine s := by
  refine ⟨inputLine_no_nl s, ?_, ?_⟩
  · rw [show (inputLine s).head? = some '#' from rfl]
    intro h
    exact absurd (Option.some.inj h) (by decide)
  · rw [show inputLine s = '#' :: (' ' :: 'I' :: ("NPUT: ".data ++ encodeState s)) from rfl]
    refine not_infix_unique_head (by decide) ?_ ?_
    · intro h
      rcases List.mem_cons.1 h with h2 | h2
      · exact absurd h2 (by decide)
      · rcases List.mem_cons.1 h2 with h3 | h3
        · exact absurd h3 (by decide)
        · rcases List.mem_append.1 h3 with h4 | h4
          · exact absurd h4 (by decide)
          · exact (encodeState_props _ h4).2.2.1 (by decide)
    · intro h
      rw [show (END_MARK : List Char) = '#' :: ' ' :: 'E' :: "ND FILTERS".data from by decide,
        List.cons_prefix_cons, List.cons_prefix_cons, List.cons_prefix_cons] at h
      exact absurd h.2.2.1 (by decide)

theorem caretLine_good (c : Nat) :
    '\n' ∉ caretLine c ∧ (caretLine c).head? ≠ some (Char.ofNat 96) ∧
      ¬ END_MARK <:+: caretLine c := by
  have hdig : ∀ x ∈ natToDec c,
      isJsWs x = false ∧ x ≠ '\n' ∧ x ≠ '#' ∧ x ≠ Char.ofNat 96 :=
    fun x hx => digit_facts2 (natToDec_digits x hx)
  refine ⟨?_, ?_, ?_⟩
  · intro h
    unfold caretLine at h
    rcases List.mem_append.1 h with h2 | h2
    · exact absurd h2 (by decide)
    · exact (hdig _ h2).2.1 rfl
  · rw [show (caretLine c).head? = some '#' from rfl]
    intro h
    exact absurd (Option.some.inj h) (by decide)
  · rw [show caretLine c = '#' :: (' ' :: 'C' :: ("ARET: ".data ++ natToDec c)) from rfl]
    refine not_infix_unique_head (by decide) ?_ ?_
    · intro h
      rcases List.mem_cons.1 h with h2 | h2
      · exact absurd h2 (by decide)
      · rcases List.mem_cons.1 h2 with h3 | h3
        · exact absurd h3 (by decide)
        · rcases List.mem_append.1 h3 with h4 | h4
          · exact absurd h4 (by decide)
          · exact (hdig _ h4).2.2.1 rfl
    · intro h
      rw [show (END_MARK : List Char) = '#' :: ' ' :: 'E' :: "ND FILTERS".data from by decide,
        List.cons_prefix_cons, List.cons_prefix_cons, List.cons_prefix_cons] at h
      exact absurd h.2.2.1 (by decide)

theorem clauseBase_wsfree {part : List Char} (hpart : ∀ ch ∈ part, isJsWs ch = false) :
    ∀ ch ∈ (if part.head? = some '#' then jsTrim (part.drop 1) else part),
      isJsWs ch = false := by
  intro ch hch
  split_ifs at hch with hh
  · exact hpart ch (List.drop_subset _ _ (jsTrim_subset ch hch))
  · exact hpart ch hch

theorem clauseItems_mem_chars {allTags : List Tag} {modes : MatchSettings} {part : List Char}
    (hpart : ∀ ch ∈ part, isJsWs ch = false)
    (htags : ∀ t ∈ allTags, ∀ ch ∈ t, isJsWs ch = false) :
    ∀ it ∈ clauseItems allTags modes part,
      ∃ x, it = quoteItem x ∧ ∀ ch ∈ x, isJsWs ch = false := by
  intro it hit
  simp only [clauseItems] at hit
  rcases List.mem_append.1 hit with h1 | h1
  · by_cases he : (if part.head? = some '#' then jsTrim (part.drop 1) else part).isEmpty
    · rw [if_pos he] at h1
      simp at h1
    · rw [if_neg he] at h1
      rw [List.mem_singleton] at h1
      exact ⟨_, h1, clauseBase_wsfree hpart⟩
  · rw [List.mem_map] at h1
    obtain ⟨t, ht, rfl⟩ := h1
    refine ⟨t, rfl, ?_⟩
    have ht2 := List.take_subset 60 _ ht
    rcases mergeNoCap_mem ht2 with h | h | h
    · by_cases hm : modes.enablePrefix
      · rw [if_pos hm] at h
        exact htags t (prefixMatch_sublist.subset h)
      · rw [if_neg hm] at h
        simp at h
    · by_cases hm : modes.enableSuffix
      · rw [if_pos hm] at h
        exact htags t (suffixMatch_sublist.subset h)
      · rw [if_neg hm] at h
        simp at h
    · by_cases hm : modes.enableSubstring
      · rw [if_pos hm] at h
        exact htags t (substringMatch_sublist.subset h)
      · rw [if_neg hm] at h
        simp at h

theorem joinComma_head_cases {items : List (List Char)} {c : Char}
    (h : (joinComma items).head? = some c) :
    (∃ it ∈ items, it.head? = some c) ∨ c = ',' := by
  cases items with
  | nil => simp [joinComma] at h
  | cons l ls =>
    cases ls with
    | nil => exact Or.inl ⟨l, by simp, h⟩
    | cons l2 ls2 =>
      rw [show joinComma (l :: l2 :: ls2) = (l ++ ", ".data) ++ joinComma (l2 :: ls2)
        from rfl, List.append_assoc] at h
      cases l with
      | nil =>
        rw [List.nil_append] at h
        rw [show ((", ".data ++ joinComma (l2 :: ls2) : List Char)).head? = some ','
          from rfl] at h
        exact Or.inr (Option.some.inj h).symm
      | cons a l3 =>
        rw [show (((a :: l3) ++ (", ".data ++ joinComma (l2 :: ls2)) : List Char)).head?
          = some a from rfl] at h
        exact Or.inl ⟨a :: l3, by simp, by rw [List.head?_cons, Option.some.inj h]⟩

theorem pair_space_not_infix_joinComma {x : Char} (hx : x ≠ ',') :
    ∀ (items : List (List Char)), (∀ it ∈ items, it ≠ []) →
      (∀ it ∈ items, ∀ ch ∈ it, ch ≠ ' ') →
      ¬ [x, ' '] <:+: joinComma items := by
  intro items
  induction items with
  | nil =>
    intro _ _ h
    rw [show joinComma [] = ([] : List Char) from rfl] at h
    have h2 := h.sublist
    simp at h2
  | cons l ls ih =>
    intro hne hsp h
    cases ls with
    | nil => exact hsp l (by simp) ' ' (mem_of_inf h (by simp)) rfl
    | cons l2 ls2 =>
      rw [show joinComma (l :: l2 :: ls2) = (l ++ ", ".data) ++ joinComma (l2 :: ls2)
        from rfl] at h
      rcases infix_pair_append h with h1 | h1 | ⟨hlast, hhead⟩
      · rcases infix_pair_append h1 with h2 | h2 | ⟨hl2, hh2⟩
        · exact hsp l (by simp) ' ' (mem_of_inf h2 (by simp)) rfl
        · have hlen := h2.sublist.eq_of_length (by simp)
          injection hlen with hxe hrest
          exact hx hxe
        · rw [show ((", ".data : List Char)).head? = some ',' from rfl] at hh2
          exact absurd (Option.some.inj hh2) (by decide)
      · exact ih (fun it hit => hne it (by simp [hit])) (fun it hit => hsp it (by simp [hit])) h1
      · rcases joinComma_head_cases hhead with ⟨it, hit, hh⟩ | hcomma
        · exact hsp it (by simp [hit]) ' ' (List.mem_of_mem_head? (Option.mem_def.2 hh)) rfl
        · exact absurd hcomma (by decide)

theorem clauseLine_good {allTags : List Tag} {modes : MatchSettings} {part : List Char}
    (hpart : ∀ ch ∈ part, isJsWs ch = false)
    (htags : ∀ t ∈ allTags, ∀ ch ∈ t, isJsWs ch = false) :
    '\n' ∉ clauseLine allTags modes part ∧
      (clauseLine allTags modes part).head? ≠ some (Char.ofNat 96) ∧
      ¬ END_MARK <:+: clauseLine allTags modes part := by
  have hitems := @clauseItems_mem_chars allTags modes part hpart htags
  refine ⟨?_, ?_, ?_⟩
  · intro h
    unfold clauseLine at h
    rcases List.mem_append.1 h with h1 | h1
    · rcases List.mem_append.1 h1 with h2 | h2
      · exact absurd h2 (by decide)
      · rcases mem_joinComma h2 with h3 | ⟨it, hit, hch⟩
        · exact absurd h3 (by decide)
        · obtain ⟨xv, rfl, hxv⟩ := hitems it hit
          rcases quoteItem_mem hch with h4 | h4 | h4
          · exact absurd h4 (by decide)
          · exact absurd (hxv _ h4) (by decide)
          · exact absurd h4 (by decide)
    · exact absurd h1 (by decide)
  · rw [show (clauseLine allTags modes part).head? = some ' ' from rfl]
    intro h
    exact absurd (Option.some.inj h) (by decide)
  · intro h
    have hp : (['#', ' '] : List Char) <:+: clauseLine allTags modes part :=
      ((show (['#', ' '] : List Char) <+: END_MARK from by decide).isInfix).trans h
    unfold clauseLine at hp
    rcases infix_pair_append hp with h1 | h1 | ⟨hlast, hhead⟩
    · rcases infix_pair_append h1 with h2 | h2 | ⟨hl2, hh2⟩
      · exact absurd h2 (by decide)
      · refine pair_space_not_infix_joinComma (by decide) _ ?_ ?_ h2
        · intro it hit
          obtain ⟨xv, rfl, -⟩ := hitems it hit
          simp [quoteItem]
        · intro it hit ch hch
          obtain ⟨xv, rfl, hxv⟩ := hitems it hit
          rcases quoteItem_mem hch with h4 | h4 | h4
          · rw [h4]; decide
          · intro he
            subst he
            exact absurd (hxv _ h4) (by decide)
          · rw [h4]; decide
      · rw [show (("    - file.tags.containsAny([".data : List Char)).getLast? = some '['
          from by decide] at hl2
        exact absurd (Option.some.inj hl2) (by decide)
    · exact absurd h1 (by decide)
    · rw [show (("])".data : List Char)).head? = some ']' from rfl] at hhead
      exact absurd (Option.some.inj hhead) (by decide)

/-! ### Round trip of the saved state through a generated document -/

theorem extract_mkDoc_some (bls : List (List Char)) (hne : bls ≠ [])
    (hgood : ∀ l ∈ bls,
      '\n' ∉ l ∧ l.head? ≠ some (Char.ofNat 96) ∧ ¬ END_MARK <:+: l)
    (g d : List Char)
    (hmi : firstLineMatch matchInputLine (BEGIN_MARK :: bls ++ [END_MARK]) = some g)
    (hmc : firstLineMatch matchCaretLine (BEGIN_MARK :: bls ++ [END_MARK]) = some d) :
    extractSavedState (mkDoc (joinNL bls)) =
      some ⟨decodeState (jsTrim g), parseDec d⟩ := by
  unfold extractSavedState
  rw [findBaseBlock_mkDoc bls hne hgood]
  simp only []
  rw [segment_mkDoc bls hne]
  rw [@splitNL_joinNL (BEGIN_MARK :: bls ++ [END_MARK]) (by simp) (by
    intro l hl
    rcases List.mem_cons.1 hl with rfl | hl2
    · decide
    · rcases List.mem_append.1 hl2 with hl3 | hl3
      · exact (hgood l hl3).1
      · rw [List.mem_singleton] at hl3
        subst hl3
        decide)]
  rw [hmi, hmc]

/-- Claim C3: serialising any input string `s` (embedded newlines, `#` and
arbitrary unicode included) and any caret `c ≤ s.length` through
`buildFiltersFromInput` into a managed base block, then parsing the document
back with `extractSavedState`, recovers exactly `⟨s, c⟩`.  The ambient tag
list is assumed whitespace-free, as Obsidian tag names are. -/
theorem claim_C3 (s : List Char) (c : Nat) (allTags : List Tag) (modes : MatchSettings)
    (hc : c ≤ s.length)
    (htags : ∀ t ∈ allTags, ∀ ch ∈ t, isJsWs ch = false) :
    extractSavedState (mkDoc (buildFiltersFromInput s allTags (some c) modes)) =
      some ⟨s, c⟩ := by
  obtain ⟨g, hmig, hg⟩ := matchInputLine_inputLine s
  by_cases hs : (jsTrim s).length = 0
  · have hbls : buildFiltersLines s allTags (some c) modes
        = ["filters:".data, inputLine s, caretLine c] := by
      simp only [buildFiltersLines]
      rw [if_pos hs]
      rfl
    have hmi : firstLineMatch matchInputLine
        (BEGIN_MARK :: ["filters:".data, inputLine s, caretLine c] ++ [END_MARK])
        = some g := by
      rw [show (BEGIN_MARK :: ["filters:".data, inputLine s, caretLine c] ++ [END_MARK]
          : List (List Char))
        = [BEGIN_MARK, "filters:".data, inputLine s, caretLine c, END_MARK] from rfl]
      rw [firstLineMatch_cons_none matchers_fixed_none.1.1,
        firstLineMatch_cons_none matchers_fixed_none.2.1.1,
        firstLineMatch_cons_some hmig]
    have hmc : firstLineMatch matchCaretLine
        (BEGIN_MARK :: ["filters:".data, inputLine s, caretLine c] ++ [END_MARK])
        = some (natToDec c) := by
      rw [show (BEGIN_MARK :: ["filters:".data, inputLine s, caretLine c] ++ [END_MARK]
          : List (List Char))
        = [BEGIN_MARK, "filters:".data, inputLine s, caretLine c, END_MARK] from rfl]
      rw [firstLineMatch_cons_none matchers_fixed_none.1.2,
        firstLineMatch_cons_none matchers_fixed_none.2.1.2,
        firstLineMatch_cons_none (matchCaretLine_inputLine s),
        firstLineMatch_cons_some (matchCaretLine_caretLine c)]
    have hgood : ∀ l ∈ ["filters:".data, inputLine s, caretLine c],
        '\n' ∉ l ∧ l.head? ≠ some (Char.ofNat 96) ∧ ¬ END_MARK <:+: l := by
      intro l hl
      rcases List.mem_cons.1 hl with rfl | hl2
      · exact ⟨by decide, by decide, by decide⟩
      · rcases List.mem_cons.1 hl2 with rfl | hl3
        · exact inputLine_good s
        · rw [List.mem_singleton] at hl3
          subst hl3
          exact caretLine_good c
    rw [show buildFiltersFromInput s allTags (some c) modes
        = joinNL (buildFiltersLines s allTags (some c) modes) from rfl, hbls]
    rw [extract_mkDoc_some _ (by simp) hgood g (natToDec c) hmi hmc]
    rw [hg, parseDec_natToDec]
  · have hbls : buildFiltersLines s allTags (some c) modes
        = ["filters:".data, "  and:".data]
            ++ (splitWs (jsTrim s)).map (clauseLine allTags modes)
            ++ [inputLine s, caretLine c] := by
      simp only [buildFiltersLines]
      rw [if_neg hs]
      rfl
    have hclause : ∀ l ∈ (splitWs (jsTrim s)).map (clauseLine allTags modes),
        '\n' ∉ l ∧ l.head? ≠ some (Char.ofNat 96) ∧ ¬ END_MARK <:+: l := by
      intro l hl
      rw [List.mem_map] at hl
      obtain ⟨part, hp, rfl⟩ := hl
      exact clauseLine_good (splitWs_mem part hp).2 htags
    have hclauseI : ∀ l ∈ (splitWs (jsTrim s)).map (clauseLine allTags modes),
        matchInputLine l = none := by
      intro l hl
      rw [List.mem_map] at hl
      obtain ⟨part, hp, rfl⟩ := hl
      refine matchInputLine_head_ne ?_
      rw [show (clauseLine allTags modes part).head? = some ' ' from rfl]
      intro h
      exact absurd (Option.some.inj h) (by decide)
    have hclauseC : ∀ l ∈ (splitWs (jsTrim s)).map (clauseLine allTags modes),
        matchCaretLine l = none := by
      intro l hl
      rw [List.mem_map] at hl
      obtain ⟨part, hp, rfl⟩ := hl
      refine matchCaretLine_head_ne ?_
      rw [show (clauseLine allTags modes part).head? = some ' ' from rfl]
      intro h
      exact absurd (Option.some.inj h) (by decide)
    have hshape : (BEGIN_MARK :: (["filters:".data, "  and:".data]
            ++ (splitWs (jsTrim s)).map (clauseLine allTags modes)
            ++ [inputLine s, caretLine c]) ++ [END_MARK] : List (List Char))
        = BEGIN_MARK :: "filters:".data :: "  and:".data ::
            ((splitWs (jsTrim s)).map (clauseLine allTags modes)
              ++ (inputLine s :: caretLine c :: [END_MARK])) := by
      simp [List.append_assoc]
    have hmi : firstLineMatch matchInputLine
        (BEGIN_MARK :: (["filters:".data, "  and:".data]
            ++ (splitWs (jsTrim s)).map (clauseLine allTags modes)
            ++ [inputLine s, caretLine c]) ++ [END_MARK]) = some g := by
      rw [hshape,
        firstLineMatch_cons_none matchers_fixed_none.1.1,
        firstLineMatch_cons_none matchers_fixed_none.2.1.1,
        firstLineMatch_cons_none matchers_fixed_none.2.2.1.1,
        firstLineMatch_append_none hclauseI,
        firstLineMatch_cons_some hmig]
    have hmc : firstLineMatch matchCaretLine
        (BEGIN_MARK :: (["filters:".data, "  and:".data]
            ++ (splitWs (jsTrim s)).map (clauseLine allTags modes)
            ++ [inputLine s, caretLine c]) ++ [END_MARK]) = some (natToDec c) := by
      rw [hshape,
        firstLineMatch_cons_none matchers_fixed_none.1.2,
        firstLineMatch_cons_none matchers_fixed_none.2.1.2,
        firstLineMatch_cons_none matchers_fixed_none.2.2.1.2,
        firstLineMatch_append_none hclauseC,
        firstLineMatch_cons_none (matchCaretLine_inputLine s),
        firstLineMatch_cons_some (matchCaretLine_caretLine c)]
    have hgood : ∀ l ∈ ["filters:".data, "  and:".data]
            ++ (splitWs (jsTrim s)).map (clauseLine allTags modes)
            ++ [inputLine s, caretLine c],
        '\n' ∉ l ∧ l.head? ≠ some (Char.ofNat 96) ∧ ¬ END_MARK <:+: l := by
      intro l hl
      rcases List.mem_append.1 hl with hl1 | hl1
      · rcases List.mem_append.1 hl1 with hl2 | hl2
        · rcases List.mem_cons.1 hl2 with rfl | hl3
          · exact ⟨by decide, by decide, by decide⟩
          · rw [List.mem_singleton] at hl3
            subst hl3
            exact ⟨by decide, by decide, by decide⟩
        · exact hclause l hl2
      · rcases List.mem_cons.1 hl1 with rfl | hl3
        · exact inputLine_good s
        · rw [List.mem_singleton] at hl3
          subst hl3
          exact caretLine_good c
    rw [show buildFiltersFromInput s allTags (some c) modes
        = joinNL (buildFiltersLines s allTags (some c) modes) from rfl, hbls]
    rw [extract_mkDoc_some _ (by simp) hgood g (natToDec c) hmi hmc]
    rw [hg, parseDec_natToDec]

/-- Witness for C3 on a concrete input, caret and tag list. -/
theorem claim_C3_witness :
    2 ≤ ("a b".data : List Char).length ∧
    (∀ t ∈ (["xa".data] : List Tag), ∀ ch ∈ t, isJsWs ch = false) ∧
    extractSavedState (mkDoc (buildFiltersFromInput "a b".data ["xa".data] (some 2)
        ⟨true, true, true, 1000⟩)) = some ⟨"a b".data, 2⟩ :=
  ⟨by decide, by decide, claim_C3 "a b".data 2 ["xa".data] ⟨true, true, true, 1000⟩
    (by decide) (by decide)⟩

/-! ### The empty-input and non-empty-input shapes of the generated filters -/

theorem encodeState_allws {s : List Char} (h : ∀ c ∈ s, isJsWs c = true) :
    ∀ x ∈ encodeState s, x = '%' ∨ ∃ m, m < 16 ∧ x = hexDigitChar m := by
  intro x hx
  unfold encodeState at hx
  rw [List.mem_flatten] at hx
  obtain ⟨l, hl, hxl⟩ := hx
  rw [List.mem_map] at hl
  obtain ⟨cc, hcc, rfl⟩ := hl
  exact encodeChar_ws (h cc hcc) x hxl

theorem hexDigit_not_ay : ∀ m, m < 16 → hexDigitChar m ≠ 'a' ∧ hexDigitChar m ≠ 'y' := by
  decide

theorem clauseItems_length (allTags : List Tag) (modes : MatchSettings) (part : List Char) :
    (clauseItems allTags modes part).length ≤ 61 := by
  unfold clauseItems
  simp only []
  split_ifs <;> simp only [List.length_append, List.length_map, List.length_take,
    List.length_nil, List.length_cons] <;> omega

/-- Claim C9: for an input whose trimmed form is empty, the generated filter
body is exactly the three lines `filters:`, `# INPUT: <encoded input>` and
`# CARET: <caret or 0>` joined by newlines — so it carries the encoded state
lines but no `containsAny` clause and no `and:` line. -/
theorem claim_C9 (input : List Char) (allTags : List Tag) (caret : Option Nat)
    (modes : MatchSettings) (h : jsTrim input = []) :
    buildFiltersFromInput input allTags caret modes
      = joinNL ["filters:".data, "# INPUT: ".data ++ encodeState input,
          "# CARET: ".data ++ natToDec (caret.getD 0)] ∧
    ¬ "containsAny".data <:+: buildFiltersFromInput input allTags caret modes ∧
    ¬ "and:".data <:+: buildFiltersFromInput input allTags caret modes := by
  have hb : buildFiltersFromInput input allTags caret modes
      = joinNL ["filters:".data, inputLine input, caretLine (caret.getD 0)] := by
    rw [show buildFiltersFromInput input allTags caret modes
        = joinNL (buildFiltersLines input allTags caret modes) from rfl]
    simp only [buildFiltersLines]
    rw [if_pos (by rw [h]; rfl)]
  have hchars : ∀ x ∈ buildFiltersFromInput input allTags caret modes,
      x ≠ 'a' ∧ x ≠ 'y' := by
    intro x hx
    rw [hb] at hx
    rcases mem_joinNL hx with rfl | ⟨l, hl, hxl⟩
    · exact ⟨by decide, by decide⟩
    · rcases List.mem_cons.1 hl with rfl | hl2
      · exact ⟨fun he => absurd (he ▸ hxl) (by decide),
          fun he => absurd (he ▸ hxl) (by decide)⟩
      · rcases List.mem_cons.1 hl2 with rfl | hl3
        · unfold inputLine at hxl
          rcases List.mem_append.1 hxl with h2 | h2
          · exact ⟨fun he => absurd (he ▸ h2) (by decide),
              fun he => absurd (he ▸ h2) (by decide)⟩
          · rcases encodeState_allws (jsTrim_eq_nil h) x h2 with rfl | ⟨m, hm, rfl⟩
            · exact ⟨by decide, by decide⟩
            · exact hexDigit_not_ay m hm
        · rw [List.mem_singleton] at hl3
          subst hl3
          unfold caretLine at hxl
          rcases List.mem_append.1 hxl with h2 | h2
          · exact ⟨fun he => absurd (he ▸ h2) (by decide),
              fun he => absurd (he ▸ h2) (by decide)⟩
          · refine ⟨?_, ?_⟩ <;> intro he <;> subst he <;>
              exact absurd (natToDec_digits _ h2) (by decide)
  refine ⟨by rw [hb]; rfl, ?_, ?_⟩
  · exact not_infix_of_not_mem (by decide)
      (fun hmem => (hchars 'y' hmem).2 rfl)
  · exact not_infix_of_not_mem (by decide)
      (fun hmem => (hchars 'a' hmem).1 rfl)

/-- Witness for C9 on a whitespace-only input. -/
theorem claim_C9_witness :
    jsTrim (" ".data : List Char) = [] ∧
    (buildFiltersFromInput " ".data [] none ⟨true, true, true, 1000⟩
      = joinNL ["filters:".data, "# INPUT: ".data ++ encodeState " ".data,
          "# CARET: ".data ++ natToDec ((none : Option Nat).getD 0)] ∧
     ¬ "containsAny".data <:+:
        buildFiltersFromInput " ".data [] none ⟨true, true, true, 1000⟩ ∧
     ¬ "and:".data <:+:
        buildFiltersFromInput " ".data [] none ⟨true, true, true, 1000⟩) :=
  ⟨by decide, claim_C9 " ".data [] none ⟨true, true, true, 1000⟩ (by decide)⟩

/-- Claim C10: for a non-empty (after trimming) input, the generated body
splits back into exactly the header `filters:`, a single `  and:` line, one
`containsAny` clause line per whitespace-separated token of the trimmed
input, and the two state lines; and every clause lists at most 61 bracket
items (the raw token plus at most 60 merged tags, although each matcher is
called with limit 200).  Tags are assumed whitespace-free. -/
theorem claim_C10 (input : List Char) (allTags : List Tag) (caret : Option Nat)
    (modes : MatchSettings) (h : jsTrim input ≠ [])
    (htags : ∀ t ∈ allTags, ∀ ch ∈ t, isJsWs ch = false) :
    splitNL (buildFiltersFromInput input allTags caret modes)
      = ["filters:".data, "  and:".data]
          ++ (splitWs (jsTrim input)).map (clauseLine allTags modes)
          ++ [inputLine input, caretLine (caret.getD input.length)] ∧
    ∀ part ∈ splitWs (jsTrim input),
      (clauseItems allTags modes part).length ≤ 61 := by
  have hb : buildFiltersFromInput input allTags caret modes
      = joinNL (["filters:".data, "  and:".data]
          ++ (splitWs (jsTrim input)).map (clauseLine allTags modes)
          ++ [inputLine input, caretLine (caret.getD input.length)]) := by
    rw [show buildFiltersFromInput input allTags caret modes
        = joinNL (buildFiltersLines input allTags caret modes) from rfl]
    simp only [buildFiltersLines]
    rw [if_neg (fun h0 => h (List.length_eq_zero.1 h0))]
  refine ⟨?_, fun part hp => clauseItems_length allTags modes part⟩
  rw [hb]
  refine splitNL_joinNL (by simp) ?_
  intro l hl
  rcases List.mem_append.1 hl with hl1 | hl1
  · rcases List.mem_append.1 hl1 with hl2 | hl2
    · rcases List.mem_cons.1 hl2 with rfl | hl3
      · decide
      · rw [List.mem_singleton] at hl3
        subst hl3
        decide
    · rw [List.mem_map] at hl2
      obtain ⟨part, hp, rfl⟩ := hl2
      exact (clauseLine_good (splitWs_mem part hp).2 htags).1
  · rcases List.mem_cons.1 hl1 with rfl | hl3
    · exact inputLine_no_nl input
    · rw [List.mem_singleton] at hl3
      subst hl3
      exact (caretLine_good (caret.getD input.length)).1

/-- Witness for C10 on a concrete non-empty input. -/
theorem claim_C10_witness :
    jsTrim ("ab".data : List Char) ≠ [] ∧
    (∀ t ∈ ([] : List Tag), ∀ ch ∈ t, isJsWs ch = false) ∧
    (splitNL (buildFiltersFromInput "ab".data [] none ⟨true, true, true, 1000⟩)
      = ["filters:".data, "  and:".data]
          ++ (splitWs (jsTrim "ab".data)).map (clauseLine [] ⟨true, true, true, 1000⟩)
          ++ [inputLine "ab".data, caretLine ((none : Option Nat).getD "ab".data.length)] ∧
     ∀ part ∈ splitWs (jsTrim "ab".data),
       (clauseItems [] ⟨true, true, true, 1000⟩ part).length ≤ 61) :=
  ⟨by decide, by decide, claim_C10 "ab".data [] none ⟨true, true, true, 1000⟩ (by decide)
    (by decide)⟩

end BLF
